import Mathlib

/-!
Verification development for the GreenwashingDashboard 2.0 crawler core.

The Python sources (`app/extractor.py`, `app/matcher.py`, `app/crawler.py`,
`app/crud.py`, `app/config.py`) are shallowly embedded below.  Text is
modelled as `List Char` (named `Str`), so that Python string slicing,
stripping and joining become ordinary list operations.  External libraries
are modelled at the level the source uses them:

* BeautifulSoup documents are rose trees (`Html`); `find_all`,
  `decompose` and `get_text` become structural traversals.
* `urllib.parse.urlparse` / `geturl` / `urljoin` are modelled as the
  component split / join that CPython's `urlsplit` / `urlunsplit`
  performs (scheme lowered, netloc after `//` up to `/?#`, fragment at
  the first `#`, query at the first `?`; empty query and fragment are
  dropped on re-serialisation).  The `params` field is folded into the
  path, which is `geturl`-equivalent.
* compiled `re` patterns are the three shapes `compile_rule` produces;
  word-boundary matching for the escaped-literal shapes is implemented
  directly, and the verbatim `/expr/` shape carries its semantics as an
  opaque engine parameter, since the enclosed expression is arbitrary.
* asyncpg tables and counters become explicit state records; each crud
  call is an atomic state update, matching the design's atomicity
  assumption on the persistence interface.
-/

set_option maxHeartbeats 1000000

abbrev Str := List Char

/-- Python `str.strip()`: drop whitespace from both ends. -/
def stripWs (s : Str) : Str :=
  ((s.dropWhile Char.isWhitespace).reverse.dropWhile Char.isWhitespace).reverse

/-- Helper for `splitWs`: accumulate the current word (reversed). -/
def splitWsAux : Str → Str → List Str
  | acc, [] => if acc = [] then [] else [acc.reverse]
  | acc, c :: rest =>
      if c.isWhitespace then
        if acc = [] then splitWsAux [] rest else acc.reverse :: splitWsAux [] rest
      else splitWsAux (c :: acc) rest

/-- Python `str.split()` with no argument: split on whitespace runs, no empties. -/
def splitWs (s : Str) : List Str := splitWsAux [] s

/-- Join a list of texts with a single space between consecutive entries
(`" ".join(...)`, and the virtual whole-page concatenation of the spec). -/
def joinWS : List Str → Str
  | [] => []
  | [t] => t
  | t :: ts => t ++ ' ' :: joinWS ts

/-- Collapse internal whitespace runs to single spaces and trim
(`" ".join(text.split())` in `extract_segments`; also absorbs the
`strip=True` fragment handling of `get_text`). -/
def wsNormalize (s : Str) : Str := joinWS (splitWs s)

/-- Python slice `s[a:b]` for `0 ≤ a`, `0 ≤ b`. -/
def pyslice (s : Str) (a b : Nat) : Str := (s.take b).drop a

/-- Python `s.rstrip("/")`. -/
def rstripSlash (s : Str) : Str := (s.reverse.dropWhile (fun c => c = '/')).reverse

/-- Split at the first occurrence of `c` (`s.split(c, 1)` when it occurs). -/
def splitFirst (c : Char) : Str → Option (Str × Str)
  | [] => none
  | x :: xs =>
      if x = c then some ([], xs)
      else (splitFirst c xs).map (fun p => (x :: p.1, p.2))

/-- Does `pat` occur before `s`? (helper for `containsSeq`). -/
def leadsWith : Str → Str → Bool
  | [], _ => true
  | _ :: _, [] => false
  | p :: ps, c :: cs => p = c && leadsWith ps cs

/-- Python substring test `pat in s`. -/
def containsSeq (pat : Str) : Str → Bool
  | [] => leadsWith pat []
  | c :: cs => leadsWith pat (c :: cs) || containsSeq pat cs

/-! ## HTML document model (BeautifulSoup trees) -/

mutual
/-- A parsed HTML node: a text node, or an element with a lowercase tag
name, attributes and children.  The sibling list is its own inductive
(`HtmlForest`) so that the traversals below are structural recursions. -/
inductive Html where
  | text (s : Str)
  | elem (tag : Str) (attrs : List (Str × Str)) (children : HtmlForest)
/-- A list of sibling HTML nodes. -/
inductive HtmlForest where
  | nil
  | cons (h : Html) (t : HtmlForest)
end

/-- Build a forest from a list of nodes (fixture notation helper). -/
def forestOf : List Html → HtmlForest
  | [] => .nil
  | h :: t => .cons h (forestOf t)

/-- `ALLOWED_TAGS` from `app/extractor.py`. -/
def allowed_tags : List Str :=
  ["p", "pre", "blockquote",
   "h1", "h2", "h3", "h4", "h5", "h6",
   "li", "dt", "dd",
   "td", "th", "caption",
   "article", "section", "main",
   "a", "span", "strong", "em", "b", "i", "u", "label", "div",
   "q", "figcaption"].map String.toList

/-- `EXCLUDED_CONTAINERS` from `app/extractor.py`. -/
def excluded_containers : List Str :=
  ["nav", "header", "footer", "aside", "script", "style", "noscript",
   "template"].map String.toList

/-- The decompose loop of `extract_segments`: remove every subtree rooted
at an excluded container, everywhere in the document. -/
def stripExcludedF : HtmlForest → HtmlForest
  | .nil => .nil
  | .cons (.text s) rest => .cons (.text s) (stripExcludedF rest)
  | .cons (.elem tag attrs children) rest =>
      if tag ∈ excluded_containers then stripExcludedF rest
      else .cons (.elem tag attrs (stripExcludedF children)) (stripExcludedF rest)

/-- All text-node contents below the given forest, in document order
(the strings BeautifulSoup's `get_text` walks). -/
def textFragmentsF : HtmlForest → List Str
  | .nil => []
  | .cons (.text s) rest => s :: textFragmentsF rest
  | .cons (.elem _ _ children) rest => textFragmentsF children ++ textFragmentsF rest

/-- `el.get_text(separator=" ", strip=True)` followed by
`" ".join(text.split())`: the whitespace-collapsed visible text of an
element.  Joining raw fragments with a space and then collapsing
whitespace runs gives the same result as stripping each fragment first. -/
def getTextH (h : Html) : Str :=
  wsNormalize (joinWS (textFragmentsF (.cons h .nil)))

/-- Tag name of a node (empty for text nodes). -/
def tagOf : Html → Str
  | .text _ => []
  | .elem tag _ _ => tag

/-- `soup.find_all(ALLOWED_TAGS)` filtered by `not _has_allowed_ancestor`:
in document order, each allowed element with no allowed ancestor.  An
allowed element's subtree is not searched further (every allowed
descendant has an allowed ancestor and is skipped by the source loop). -/
def collectAllowed : HtmlForest → List Html
  | .nil => []
  | .cons (.text _) rest => collectAllowed rest
  | .cons (.elem tag attrs children) rest =>
      if tag ∈ allowed_tags then
        .elem tag attrs children :: collectAllowed rest
      else collectAllowed children ++ collectAllowed rest

/-- One emitted text segment (`TextSegment` in `app/extractor.py`). -/
structure TextSegment where
  text : Str
  tag : Str
  char_offset : Nat
deriving DecidableEq

/-- The accumulation loop of `extract_segments`: skip empty-after-trim
texts, otherwise emit a segment at the running offset and advance the
offset by the text length plus one separating space. -/
def segLoop : List Html → Nat → List TextSegment
  | [], _ => []
  | el :: rest, off =>
      let t := getTextH el
      if t = [] then segLoop rest off
      else ⟨t, tagOf el, off⟩ :: segLoop rest (off + t.length + 1)

/-- `extract_segments` from `app/extractor.py`. -/
def extract_segments (doc : HtmlForest) : List TextSegment :=
  segLoop (collectAllowed (stripExcludedF doc)) 0

/-- The virtual whole-page text: every surviving segment's text joined
with single separating spaces, in document order (spec §4.2). -/
def pageText (doc : HtmlForest) : Str :=
  joinWS ((extract_segments doc).map (fun s => s.text))

/-! ## Snippet builder (`_make_snippet` in `app/crawler.py`) -/

/-- `settings.snippet_context` from `app/config.py`: characters of context
captured on each side of a keyword match. -/
def snippet_context : Nat := 120

/-- `_make_snippet(text, pos, ctx)`: `ctx` characters of context on each
side of `pos`, clipped to the string, with a leading/trailing ellipsis
when the corresponding bound was clipped.  `max(0, pos - ctx)` is `Nat`
truncated subtraction. -/
def make_snippet (text : Str) (pos ctx : Nat) : Str :=
  let start := pos - ctx
  let stop := min text.length (pos + ctx)
  let snip := (text.take stop).drop start
  let snip2 := if 0 < start then '…' :: snip else snip
  if stop < text.length then snip2 ++ ['…'] else snip2

/-! ## URL model (`urllib.parse` as used by the sources) -/

/-- The components CPython's `urlsplit` produces (`params` folded into
`path`, which is `geturl`-equivalent). -/
structure UrlParts where
  scheme : Str
  netloc : Str
  path : Str
  query : Str
  fragment : Str
deriving DecidableEq

/-- Valid scheme characters after the first (`scheme_chars`). -/
def isSchemeChar (c : Char) : Bool := c.isAlphanum || c = '+' || c = '-' || c = '.'

/-- Characters that terminate the netloc portion (`_splitnetloc`). -/
def isNetChar (c : Char) : Bool := !(c = '/' || c = '?' || c = '#')

/-- Scheme detection of `urlsplit`: the text before the first `:` when it
is a non-empty valid scheme starting with a letter (lowercased), paired
with the remainder; otherwise no scheme. -/
def schemeSplit (s : Str) : Str × Str :=
  match splitFirst ':' s with
  | some (pre, post) =>
      if pre ≠ [] ∧ pre.all isSchemeChar ∧ (pre.head?.map Char.isAlpha = some true)
      then (pre.map Char.toLower, post)
      else ([], s)
  | none => ([], s)

/-- Netloc detection of `urlsplit`: after a leading `//`, up to the next
`/`, `?` or `#`, paired with the remainder. -/
def netlocSplit (rest : Str) : Str × Str :=
  if rest.take 2 = ['/', '/'] then
    ((rest.drop 2).takeWhile isNetChar, (rest.drop 2).dropWhile isNetChar)
  else ([], rest)

/-- Fragment split of `urlsplit`: at the first `#`. -/
def fragSplit (rest2 : Str) : Str × Str :=
  match splitFirst '#' rest2 with
  | some (a, b) => (a, b)
  | none => (rest2, [])

/-- Query split of `urlsplit`: at the first `?`. -/
def querySplit (befFrag : Str) : Str × Str :=
  match splitFirst '?' befFrag with
  | some (a, b) => (a, b)
  | none => (befFrag, [])

/-- `urllib.parse.urlparse`: scheme before the first `:` when the prefix
is a valid scheme (lowercased); netloc after `//` up to `/?#`; fragment
after the first `#`; query after the first `?` of what remains. -/
def urlparse (s : Str) : UrlParts :=
  { scheme := (schemeSplit s).1
    netloc := (netlocSplit (schemeSplit s).2).1
    path := (querySplit (fragSplit (netlocSplit (schemeSplit s).2).2).1).1
    query := (querySplit (fragSplit (netlocSplit (schemeSplit s).2).2).1).2
    fragment := (fragSplit (netlocSplit (schemeSplit s).2).2).2 }

/-- `ParseResult.geturl` / `urlunsplit`: reassemble the components; empty
query and fragment contribute nothing. -/
def geturl (p : UrlParts) : Str :=
  let u1 :=
    if p.netloc ≠ [] ∨ p.path.take 2 = ['/', '/'] then
      ('/' :: '/' :: p.netloc) ++
        (if p.path ≠ [] ∧ p.path.head? ≠ some '/' then '/' :: p.path else p.path)
    else p.path
  let u2 := if p.scheme ≠ [] then p.scheme ++ ':' :: u1 else u1
  let u3 := if p.query ≠ [] then u2 ++ '?' :: p.query else u2
  if p.fragment ≠ [] then u3 ++ '#' :: p.fragment else u3

/-- Drop the final path segment (everything after the last `/`),
for relative-reference resolution. -/
def dirOf (path : Str) : Str :=
  (path.reverse.dropWhile (fun c => c ≠ '/')).reverse

/-- Resolve `.` and `..` segments the way `urljoin` does. -/
def resolveDots (segs : List Str) : List Str :=
  segs.foldl
    (fun acc seg =>
      if seg = ['.'] then acc
      else if seg = ['.', '.'] then acc.dropLast
      else acc ++ [seg]) []

/-- Split a path on `/` (keeping empty segments), like `"a/b".split("/")`. -/
def splitSlash : Str → List Str
  | [] => [[]]
  | c :: rest =>
      if c = '/' then [] :: splitSlash rest
      else
        match splitSlash rest with
        | [] => [[c]]
        | seg :: segs => (c :: seg) :: segs

/-- Join path segments with `/` (`"/".join(...)`). -/
def joinSlash : List Str → Str
  | [] => []
  | [s] => s
  | s :: ss => s ++ '/' :: joinSlash ss

/-- `urllib.parse.urljoin(base, url)`: RFC 3986 style reference
resolution as CPython implements it for http(s) bases. -/
def urljoin (base url : Str) : Str :=
  if base = [] then url
  else if url = [] then base
  else
    let b := urlparse base
    let r := urlparse url
    if r.scheme ≠ [] ∧ r.scheme ≠ b.scheme then geturl r
    else if r.netloc ≠ [] then geturl ⟨b.scheme, r.netloc, r.path, r.query, r.fragment⟩
    else if r.path = [] then
      geturl ⟨b.scheme, b.netloc, b.path,
        (if r.query ≠ [] then r.query else b.query), r.fragment⟩
    else if r.path.head? = some '/' then
      geturl ⟨b.scheme, b.netloc, r.path, r.query, r.fragment⟩
    else
      let merged := dirOf b.path ++ r.path
      let segs := splitSlash merged
      let path :=
        match segs with
        | [] => []
        | s0 :: restSegs => joinSlash (s0 :: resolveDots restSegs)
      geturl ⟨b.scheme, b.netloc, path, r.query, r.fragment⟩

/-- `_normalise_url` from `app/crawler.py`: strip fragment and trailing
slash for dedup purposes. -/
def normalise_url (url : Str) : Str :=
  rstripSlash (geturl { urlparse url with fragment := [] })

/-- `_same_host` from `app/crawler.py`. -/
def same_host (url : Str) (netloc : Str) : Bool := (urlparse url).netloc = netloc

/-! ## Link extraction (`extract_links` in `app/extractor.py`) -/

/-- The `href` values of every `<a href=...>` element, in document order
(`soup.find_all("a", href=True)` on the raw document — `extract_links`
does not strip excluded containers). -/
def anchorHrefs : HtmlForest → List Str
  | .nil => []
  | .cons (.text _) rest => anchorHrefs rest
  | .cons (.elem tag attrs children) rest =>
      (match (if tag = ['a'] then attrs.lookup ['h', 'r', 'e', 'f'] else none) with
       | some v => [v]
       | none => []) ++ anchorHrefs children ++ anchorHrefs rest

/-- The skip test of `extract_links`: blank href or a pseudo-scheme
(`#`, `javascript:`, `mailto:`, `tel:`). -/
def hrefSkipped (href : Str) : Bool :=
  href = [] || leadsWith ['#'] href ||
    leadsWith "javascript:".toList href ||
    leadsWith "mailto:".toList href ||
    leadsWith "tel:".toList href

/-- The body of `extract_links`'s per-anchor loop, folding over the
accumulated `(seen, links)` state. -/
def linkStep (base_url : Str) (acc : List Str × List Str) (href0 : Str) :
    List Str × List Str :=
  let href := stripWs href0
  if hrefSkipped href then acc
  else
    let full := urljoin base_url href
    let parsed := urlparse full
    if ¬(parsed.scheme = "http".toList ∨ parsed.scheme = "https".toList) then acc
    else if parsed.netloc ≠ (urlparse base_url).netloc then acc
    else
      let normalised := rstripSlash (geturl { parsed with fragment := [] })
      if normalised ∈ acc.1 then acc
      else (normalised :: acc.1, acc.2 ++ [normalised])

/-- `extract_links` from `app/extractor.py`. -/
def extract_links (doc : HtmlForest) (base_url : Str) : List Str :=
  ((anchorHrefs doc).foldl (linkStep base_url) ([], [])).2

/-! ## Keyword rules (`app/matcher.py`) -/

/-- The three compiled-pattern shapes `compile_rule` produces.  The
`/expr/` form keeps the enclosed expression verbatim; the other two are
the word-boundary patterns built from the escaped literal (escaping is
what makes the literal match literally, so the model carries the literal
itself). -/
inductive RePattern where
  | regexForm (expr : Str)
  | wildcardForm (stem : Str)
  | plainForm (word : Str)
deriving DecidableEq

/-- A compiled rule: `(keyword, pattern)` (`Rule` in `app/matcher.py`). -/
abbrev Rule := Str × RePattern

/-- The semantics of an arbitrary `/expr/` regex is supplied externally
(the `re` module): expression → text → list of `(start, group0)` in
scan order. -/
abbrev ReEngine := Str → Str → List (Nat × Str)

/-- A word character for `\w` / `\b` (ASCII model of `re` word chars). -/
def isWordChar (c : Char) : Bool := c.isAlphanum || c = '_'

/-- Case-insensitive equality (`re.IGNORECASE` on the escaped literal). -/
def lowerEq (a b : Str) : Bool := a.map Char.toLower = b.map Char.toLower

/-- Is the character at index `i` a word character (out of range = no)? -/
def wordAt (t : Str) (i : Nat) : Bool :=
  match t.get? i with
  | some c => isWordChar c
  | none => false

/-- Does `\b` hold between positions `i - 1` and `i` of `t`? -/
def boundaryAt (t : Str) (i : Nat) : Bool :=
  (if i = 0 then false else wordAt t (i - 1)) != wordAt t i

/-- `finditer` of the plain-form pattern `\b<word>\b` (IGNORECASE): every
start position where the literal matches case-insensitively between word
boundaries.  For word-character literals these matches cannot overlap,
so this coincides with `re`'s non-overlapping scan. -/
def plain_matches (w : Str) (t : Str) : List (Nat × Str) :=
  (List.range (t.length + 1)).filterMap fun i =>
    let seg := pyslice t i (i + w.length)
    if seg.length = w.length ∧ lowerEq seg w ∧ boundaryAt t i ∧
        boundaryAt t (i + w.length) then
      some (i, seg)
    else none

/-- End of the maximal word-character run starting at `j` (the greedy
`\w*`). -/
def wordRunEnd (t : Str) (j : Nat) : Nat :=
  j + ((t.drop j).takeWhile isWordChar).length

/-- `finditer` of the wildcard-form pattern `\b<stem>\w*` (IGNORECASE):
starts where the stem matches case-insensitively at a word boundary; the
matched text extends through the following word characters. -/
def wildcard_matches (stem : Str) (t : Str) : List (Nat × Str) :=
  (List.range (t.length + 1)).filterMap fun i =>
    let pre := pyslice t i (i + stem.length)
    if pre.length = stem.length ∧ lowerEq pre stem ∧ boundaryAt t i then
      some (i, pyslice t i (wordRunEnd t (i + stem.length)))
    else none

/-- `pattern.finditer(text)` for a compiled pattern. -/
def finditerR (engine : ReEngine) : RePattern → Str → List (Nat × Str)
  | .regexForm e, t => engine e t
  | .wildcardForm s, t => wildcard_matches s t
  | .plainForm w, t => plain_matches w t

/-- `compile_rule` from `app/matcher.py`: strip, then check the
delimited `/expr/` form, then the suffix-wildcard form, then the plain
form. -/
def compile_rule (keyword : Str) : Rule :=
  let kw := stripWs keyword
  if kw.head? = some '/' ∧ kw.getLast? = some '/' ∧ 2 < kw.length then
    (kw, .regexForm (kw.drop 1).dropLast)
  else if kw.getLast? = some '*' then
    (kw, .wildcardForm kw.dropLast)
  else (kw, .plainForm kw)

/-- `compile_rules` from `app/matcher.py`: compile each keyword, skipping
blank/whitespace-only entries. -/
def compile_rules (keywords : List Str) : List Rule :=
  (keywords.filter (fun k => stripWs k ≠ [])).map compile_rule

/-- `MatchResult` from `app/matcher.py`. -/
structure MatchResult where
  keyword : Str
  matched_text : Str
  position : Nat
deriving DecidableEq

/-- Stable insertion keeping earlier-collected results first among equal
positions. -/
def insertByPos (m : MatchResult) : List MatchResult → List MatchResult
  | [] => [m]
  | y :: ys => if m.position ≤ y.position then m :: y :: ys else y :: insertByPos m ys

/-- Stable insertion sort by position (`results.sort(key=...)`). -/
def sortByPos : List MatchResult → List MatchResult
  | [] => []
  | x :: xs => insertByPos x (sortByPos xs)

/-- `find_matches` from `app/matcher.py`: every match of every rule,
sorted by position (Python's stable sort). -/
def find_matches (engine : ReEngine) (text : Str) (rules : List Rule) :
    List MatchResult :=
  let results := rules.foldl
    (fun acc r =>
      acc ++ (finditerR engine r.2 text).map (fun m => ⟨r.1, m.2, m.1⟩)) []
  sortByPos results

/-- `any_match` from `app/matcher.py`: does any rule's pattern hit? -/
def any_match (engine : ReEngine) (text : Str) (rules : List Rule) : Bool :=
  rules.any (fun r => !(finditerR engine r.2 text).isEmpty)

/-! ## Persistence state and the page worker (`app/crud.py`, `app/crawler.py`) -/

/-- Page lifecycle status (`pages.status`). -/
inductive PageStatus where
  | pending
  | scanning
  | completed
  | skipped
  | failed
deriving DecidableEq

/-- A `pages` row as the worker leaves it (URL, status, notes,
total_hits, keywords_csv). -/
structure PageRow where
  url : Str
  status : PageStatus
  notes : Option Str
  total_hits : Option Nat
  keywords_csv : Option Str
deriving DecidableEq

/-- The run's counters (`crawl_runs.pages_found / pages_scanned /
error_count`), each incremented atomically by the store. -/
structure RunCounters where
  pages_found : Nat
  pages_scanned : Nat
  error_count : Nat
deriving DecidableEq

/-- A stored match (`page_matches` row, minus the page id, which is
fixed within one worker call). -/
structure MatchRow where
  keyword : Str
  matched_text : Str
  tag : Str
  position : Nat
  snippet : Str
deriving DecidableEq

/-- Outcome of the HTTP fetch, as `_scan_page` distinguishes it:
a response (content type plus parsed body), an error status
(`raise_for_status` throws `HTTPStatusError`), or a transport fault
(`httpx.RequestError`). -/
inductive FetchOutcome where
  | success (content_type : Str) (body : HtmlForest)
  | httpStatus (code : Nat)
  | transportErr (errName : Str)

/-- A run-counter update event, in the order the worker issues them. -/
inductive CEvent where
  | found
  | scanned
  | errored
deriving DecidableEq

/-- `insert_page` from `app/crud.py`: conflict-safe insert on the
`(run_id, url)` constraint; returns the fresh id, or `none` (and an
unchanged table) if the pair already exists. -/
def insert_page (table : List (Nat × Str)) (run_id : Nat) (url : Str) :
    Option Nat × List (Nat × Str) :=
  if (run_id, url) ∈ table then (none, table)
  else (some table.length, table ++ [(run_id, url)])

/-- Lexicographic order on strings (Python `sorted` on `str`). -/
def lexLe : Str → Str → Bool
  | [], _ => true
  | _ :: _, [] => false
  | a :: as', b :: bs' =>
      if a = b then lexLe as' bs' else decide (a < b)

/-- Stable insertion into a lexicographically sorted list. -/
def insertLex (s : Str) : List Str → List Str
  | [] => [s]
  | y :: ys => if lexLe s y then s :: y :: ys else y :: insertLex s ys

/-- Insertion sort by `lexLe` (Python `sorted`). -/
def sortLex : List Str → List Str
  | [] => []
  | x :: xs => insertLex x (sortLex xs)

/-- First-occurrence deduplication (the effect of collecting into a
`set` before sorting). -/
def dedupAux (seen : List Str) : List Str → List Str
  | [] => []
  | x :: xs => if x ∈ seen then dedupAux seen xs else x :: dedupAux (x :: seen) xs

/-- Distinct elements in first-seen order. -/
def dedupFirst (l : List Str) : List Str := dedupAux [] l

/-- Join with commas (`",".join(...)`). -/
def joinSep : List Str → Str
  | [] => []
  | [s] => s
  | s :: ss => s ++ ',' :: joinSep ss

/-- Comma-joined sorted distinct keyword list, or `none` when empty
(`",".join(sorted(hit_keywords)) or None`). -/
def keywordsCsv (ks : List Str) : Option Str :=
  match sortLex (dedupFirst ks) with
  | [] => none
  | l => some (joinSep l)

/-- Everything one `_scan_page` call produces: final counters, the
page's row (none when registration reported a duplicate), the persisted
matches, the returned links, the updated pages table, and the ordered
counter events it issued. -/
structure ScanOutput where
  counters : RunCounters
  page : Option PageRow
  match_rows : List MatchRow
  links : List Str
  table : List (Nat × Str)
  events : List CEvent
deriving DecidableEq

/-- The step-5 match collection of `_scan_page`: for every segment and
every rule match, the absolute position (segment offset plus in-segment
position) and a snippet built from the segment's own text. -/
def pageMatchRows (engine : ReEngine) (keyword_rules : List Rule)
    (body : HtmlForest) : List MatchRow :=
  (extract_segments body).foldl
    (fun acc seg =>
      acc ++ (find_matches engine seg.text keyword_rules).map
        (fun mr =>
          ⟨mr.keyword, mr.matched_text, seg.tag,
            seg.char_offset + mr.position,
            make_snippet seg.text mr.position snippet_context⟩)) []

/-- `_scan_page` from `app/crawler.py`.  `fetch` is the outcome of the
HTTP request; `unexpected` injects the `except Exception` path (a fault
raised during segmentation/matching, carrying the exception message).
Each crud call is an atomic update of the explicit state. -/
def scan_page (engine : ReEngine) (url : Str) (run_id : Nat)
    (table : List (Nat × Str)) (fetch : FetchOutcome)
    (unexpected : Option Str) (keyword_rules exclude_rules : List Rule)
    (c : RunCounters) : ScanOutput :=
  match insert_page table run_id url with
  | (none, t') => ⟨c, none, [], [], t', []⟩
  | (some _page_id, t') =>
    let c1 : RunCounters := { c with pages_found := c.pages_found + 1 }
    match fetch with
    | .httpStatus code =>
        ⟨{ c1 with error_count := c1.error_count + 1,
                   pages_scanned := c1.pages_scanned + 1 },
         some ⟨url, .failed, some ("HTTP ".toList ++ (Nat.repr code).toList),
               none, none⟩,
         [], [], t', [.found, .errored, .scanned]⟩
    | .transportErr errName =>
        ⟨{ c1 with error_count := c1.error_count + 1,
                   pages_scanned := c1.pages_scanned + 1 },
         some ⟨url, .failed, some ("Request error: ".toList ++ errName),
               none, none⟩,
         [], [], t', [.found, .errored, .scanned]⟩
    | .success content_type body =>
        if ¬ containsSeq "html".toList content_type then
          ⟨{ c1 with pages_scanned := c1.pages_scanned + 1 },
           some ⟨url, .failed, some "Non-HTML content-type".toList, none, none⟩,
           [], [], t', [.found, .scanned]⟩
        else
          let discovered_links := extract_links body url
          if exclude_rules ≠ [] ∧
              any_match engine (urlparse url).path exclude_rules then
            ⟨{ c1 with pages_scanned := c1.pages_scanned + 1 },
             some ⟨url, .skipped, some "URL matched an exclude pattern".toList,
                   none, none⟩,
             [], discovered_links, t', [.found, .scanned]⟩
          else
            match unexpected with
            | some msg =>
                ⟨{ c1 with error_count := c1.error_count + 1,
                           pages_scanned := c1.pages_scanned + 1 },
                 some ⟨url, .failed, some (msg.take 200), none, none⟩,
                 [], [], t', [.found, .errored, .scanned]⟩
            | none =>
                let all_matches := pageMatchRows engine keyword_rules body
                let csv := keywordsCsv (all_matches.map (fun m => m.keyword))
                ⟨{ c1 with pages_scanned := c1.pages_scanned + 1 },
                 some ⟨url, .completed, none, some all_matches.length, csv⟩,
                 all_matches, discovered_links, t', [.found, .scanned]⟩

/-! ## Orchestrator outcome (`crawl_run` in `app/crawler.py`) -/

/-- Run lifecycle status (`crawl_runs.status`). -/
inductive RunStatus where
  | pending
  | running
  | completed
  | failed
deriving DecidableEq

/-- The run status `crawl_run` leaves behind, plus whether an exception
escaped the coroutine. -/
structure OrchOutcome where
  status : RunStatus
  escaped : Bool
deriving DecidableEq

/-- `crawl_run` at the level of its fault structure.  `start_run` sets
the status to `running`; seed normalisation (lines 232-233) and
`compile_rules` (lines 235-236) run before the `try` block, so a fault
there escapes with the run still `running`; a fault inside the `try`
(client construction or the crawl loop) is caught and `finish_run`
records `failed`; otherwise `finish_run` records `completed`.  Worker
faults are absorbed by `asyncio.gather(..., return_exceptions=True)`
and never affect the outcome, so `workersRaised` is ignored. -/
def crawl_run_status (seedFault compileFault clientFault loopFault : Bool)
    (workersRaised : List Bool) : OrchOutcome :=
  if seedFault then ⟨.running, true⟩
  else if compileFault then ⟨.running, true⟩
  else if clientFault ∨ loopFault then ⟨.failed, false⟩
  else ⟨.completed, false⟩

/-! ## Interleavings of worker counter events (concurrency model for the
`pages_scanned ≤ pages_found` invariant) -/

/-- Number of `found` events in a trace. -/
def countF (l : List CEvent) : Nat := (l.filter (fun e => e = .found)).length

/-- Number of `scanned` events in a trace. -/
def countS (l : List CEvent) : Nat := (l.filter (fun e => e = .scanned)).length

/-- An interleaving of two event traces (the counter updates of two
concurrent workers, in some global order the store observes). -/
inductive Interleave : List CEvent → List CEvent → List CEvent → Prop
  | nil : Interleave [] [] []
  | left {xs ys zs e} : Interleave xs ys zs → Interleave (e :: xs) ys (e :: zs)
  | right {xs ys zs e} : Interleave xs ys zs → Interleave xs (e :: ys) (e :: zs)

/-- A global trace arising from any number of workers: fold binary
interleavings over the list of per-worker traces. -/
inductive SchedOf : List (List CEvent) → List CEvent → Prop
  | nil : SchedOf [] []
  | cons {w ws rest t} : Interleave w rest t → SchedOf ws rest → SchedOf (w :: ws) t

/-- Credit-weighted prefix domination: every prefix has at most `c` more
`scanned` events than `found` events. -/
def domC (c : Nat) (l : List CEvent) : Prop :=
  ∀ n, countS (l.take n) ≤ c + countF (l.take n)

/-- A trace is a possible event trace of `_scan_page`. -/
def IsScanTrace (w : List CEvent) : Prop :=
  ∃ engine url run_id table fetch unexpected keyword_rules exclude_rules c,
    w = (scan_page engine url run_id table fetch unexpected keyword_rules
      exclude_rules c).events

/-! ## Offset-accounting lemmas (C1/C2) -/

theorem segLoop_get?_offset (els : List Html) : ∀ (off i : Nat) (s : TextSegment),
    (segLoop els off).get? i = some s →
    s.char_offset
      = off + ((((segLoop els off).take i).map (fun x => x.text.length + 1))).sum := by
  induction els with
  | nil => intro off i s hs; simp [segLoop] at hs
  | cons el rest ih =>
      intro off i s hs
      by_cases ht : getTextH el = []
      · simp only [segLoop, ht, if_pos] at hs ⊢
        exact ih off i s hs
      · simp only [segLoop, ht, if_neg, not_false_iff] at hs ⊢
        cases i with
        | zero => simp at hs; simp [← hs]
        | succ j =>
            simp only [List.get?] at hs
            have := ih (off + (getTextH el).length + 1) j s hs
            simp only [List.take, List.map, List.sum_cons]
            omega

theorem segLoop_text_ne (els : List Html) : ∀ (off : Nat) (s : TextSegment),
    s ∈ segLoop els off → s.text ≠ [] := by
  induction els with
  | nil => intro off s hs; simp [segLoop] at hs
  | cons el rest ih =>
      intro off s hs
      by_cases ht : getTextH el = []
      · simp only [segLoop, ht, if_pos] at hs
        exact ih off s hs
      · simp only [segLoop, ht, if_neg, not_false_iff, List.mem_cons] at hs
        cases hs with
        | inl h0 => rw [h0]; exact ht
        | inr h1 => exact ih _ s h1

theorem joinWS_length (ts : List Str) (h : ts ≠ []) :
    (joinWS ts).length + 1 = (ts.map (fun t => t.length + 1)).sum := by
  induction ts with
  | nil => simp at h
  | cons t rest ih =>
      cases rest with
      | nil => simp [joinWS]
      | cons u us =>
          have h2 := ih (by simp)
          simp only [joinWS, List.map, List.sum_cons, List.length_append,
            List.length_cons] at h2 ⊢
          omega

/-- Offset of the `i`-th text in the virtual concatenation. -/
def offsT (ts : List Str) (i : Nat) : Nat :=
  ((ts.take i).map (fun t => t.length + 1)).sum

theorem joinWS_le (ts : List Str) : ∀ (i : Nat) (hi : i < ts.length),
    offsT ts i + (ts.get ⟨i, hi⟩).length ≤ (joinWS ts).length := by
  induction ts with
  | nil => intro i hi; simp at hi
  | cons t rest ih =>
      intro i hi
      cases i with
      | zero =>
          cases rest with
          | nil => simp [offsT, joinWS]
          | cons u us => simp [offsT, joinWS]
      | succ j =>
          have hj : j < rest.length := by simpa using hi
          have := ih j hj
          cases rest with
          | nil => simp at hj
          | cons u us =>
              simp only [offsT, joinWS, List.take, List.map, List.sum_cons,
                List.length_append, List.length_cons, List.get] at this ⊢
              omega

theorem joinWS_slice (ts : List Str) : ∀ (i a b : Nat) (hi : i < ts.length),
    b ≤ (ts.get ⟨i, hi⟩).length →
    pyslice (joinWS ts) (offsT ts i + a) (offsT ts i + b)
      = pyslice (ts.get ⟨i, hi⟩) a b := by
  induction ts with
  | nil => intro i a b hi; simp at hi
  | cons t rest ih =>
      intro i a b hi hb
      cases i with
      | zero =>
          simp only [List.get] at hb ⊢
          cases rest with
          | nil => simp [offsT, joinWS]
          | cons u us =>
              simp only [offsT, joinWS, List.take, List.map, List.sum_nil,
                Nat.zero_add, pyslice]
              rw [List.take_append_eq_append_take]
              have : b - t.length = 0 := by omega
              simp [this]
      | succ j =>
          have hj : j < rest.length := by simpa using hi
          cases rest with
          | nil => simp at hj
          | cons u us =>
              simp only [List.get] at hb ⊢
              have key := ih j a b hj hb
              set J := joinWS (u :: us) with hJ
              set M := offsT (u :: us) j with hM
              have hoff : offsT (t :: u :: us) (j + 1) = t.length + 1 + M := by
                simp only [offsT, hM, List.take_succ_cons, List.map, List.sum_cons]
              have hjoin : joinWS (t :: u :: us) = t ++ ' ' :: J := by
                simp [joinWS, hJ]
              rw [hoff, hjoin]
              simp only [pyslice] at key ⊢
              rw [List.take_append_eq_append_take]
              rw [List.take_of_length_le (by omega)]
              rw [show t.length + 1 + M + b - t.length = (M + b) + 1 by omega]
              rw [List.take_succ_cons]
              rw [List.drop_append_eq_append_drop]
              rw [List.drop_of_length_le (by omega)]
              rw [show t.length + 1 + M + a - t.length = (M + a) + 1 by omega]
              rw [List.drop_succ_cons]
              simpa using key

theorem make_snippet_join (ts : List Str) (i : Nat) (hi : i < ts.length)
    (p ctx : Nat) (hcp : ctx < p) (hlen : p + ctx < (ts.get ⟨i, hi⟩).length) :
    make_snippet (ts.get ⟨i, hi⟩) p ctx
      = make_snippet (joinWS ts) (offsT ts i + p) ctx := by
  have hle := joinWS_le ts i hi
  have hsl := joinWS_slice ts i (p - ctx) (p + ctx) hi (by omega)
  simp only [pyslice] at hsl
  simp only [make_snippet]
  rw [Nat.min_eq_right (by omega : p + ctx ≤ (ts.get ⟨i, hi⟩).length)]
  rw [Nat.min_eq_right (by omega : offsT ts i + p + ctx ≤ (joinWS ts).length)]
  rw [if_pos (by omega : p + ctx < (ts.get ⟨i, hi⟩).length)]
  rw [if_pos (by omega : offsT ts i + p + ctx < (joinWS ts).length)]
  rw [if_pos (by omega : 0 < p - ctx)]
  rw [if_pos (by omega : 0 < offsT ts i + p - ctx)]
  rw [show offsT ts i + p - ctx = offsT ts i + (p - ctx) by omega]
  rw [show offsT ts i + p + ctx = offsT ts i + (p + ctx) by omega]
  rw [hsl]

theorem extract_segments_offset_eq (doc : HtmlForest) (i : Nat)
    (h : i < (extract_segments doc).length) :
    ((extract_segments doc).get ⟨i, h⟩).char_offset
      = offsT ((extract_segments doc).map (fun s => s.text)) i := by
  have h0 : (extract_segments doc).get? i
      = some ((extract_segments doc).get ⟨i, h⟩) := List.get?_eq_get h
  have h1 := segLoop_get?_offset (collectAllowed (stripExcludedF doc)) 0 i
    ((extract_segments doc).get ⟨i, h⟩) h0
  rw [h1]
  show 0 + (((extract_segments doc).take i).map (fun x => x.text.length + 1)).sum = _
  simp only [offsT, ← List.map_take, List.map_map, Nat.zero_add]
  rfl

/-- Fixture: two paragraphs with texts `ab` and `cd`. -/
def docTwoP : HtmlForest :=
  forestOf [.elem "p".toList [] (forestOf [.text "ab".toList]),
            .elem "p".toList [] (forestOf [.text "cd".toList])]

/-- Fixture: two paragraphs with texts `abcd` and `xyzw`. -/
def docFour : HtmlForest :=
  forestOf [.elem "p".toList [] (forestOf [.text "abcd".toList]),
            .elem "p".toList [] (forestOf [.text "xyzw".toList])]

/-- C1: in `extract_segments`' output the `i`-th segment's `char_offset`
equals the sum, over all previously emitted segments, of that segment's
text length plus one separating space; equivalently (for `0 < i`) the
length of the prior texts joined by single spaces plus one trailing
separator; and empty-after-trim segments are never emitted, so they
consume no offset space. -/
theorem c1_segment_offsets (doc : HtmlForest) (i : Nat)
    (h : i < (extract_segments doc).length) :
    ((extract_segments doc).get ⟨i, h⟩).char_offset
      = ((((extract_segments doc).take i).map (fun s => s.text.length + 1))).sum
    ∧ (0 < i → ((extract_segments doc).get ⟨i, h⟩).char_offset
        = (joinWS (((extract_segments doc).take i).map (fun s => s.text))).length
          + 1)
    ∧ (∀ s ∈ extract_segments doc, s.text ≠ []) := by
  have h0 : (extract_segments doc).get? i
      = some ((extract_segments doc).get ⟨i, h⟩) := List.get?_eq_get h
  have h1 := segLoop_get?_offset (collectAllowed (stripExcludedF doc)) 0 i
    ((extract_segments doc).get ⟨i, h⟩) h0
  have hmain : ((extract_segments doc).get ⟨i, h⟩).char_offset
      = ((((extract_segments doc).take i).map (fun s => s.text.length + 1))).sum := by
    rw [h1, Nat.zero_add]; rfl
  refine ⟨hmain, ?_, ?_⟩
  · intro hpos
    have hne : ((extract_segments doc).take i).map (fun s => s.text) ≠ [] := by
      have hlen : 0 < ((extract_segments doc).take i).length := by
        rw [List.length_take]; omega
      intro hcontra
      rw [List.map_eq_nil_iff] at hcontra
      rw [hcontra] at hlen
      simp at hlen
    have hjl := joinWS_length (((extract_segments doc).take i).map
      (fun s => s.text)) hne
    rw [List.map_map] at hjl
    rw [hmain]
    have hcomp : (((extract_segments doc).take i).map
          (fun s => s.text.length + 1)).sum
        = (((extract_segments doc).take i).map
            ((fun t => t.length + 1) ∘ fun s => s.text)).sum := rfl
    omega
  · intro s hs
    exact segLoop_text_ne (collectAllowed (stripExcludedF doc)) 0 s hs

theorem c1_segment_offsets_witness :
    ((extract_segments docTwoP).get ⟨1, by decide⟩).char_offset
      = ((((extract_segments docTwoP).take 1).map
          (fun s => s.text.length + 1))).sum :=
  (c1_segment_offsets docTwoP 1 (by decide)).1

/-- C2 (amended): the snippet the worker stores (built from the
segment's own text at the in-segment position) equals the snippet built
from the virtual whole-page concatenation at the absolute position
whenever the context window lies strictly inside the segment
(`ctx < pos` and `pos + ctx < |segment text|`); at segment edges the two
derivations can differ. -/
theorem c2_snippet_window (doc : HtmlForest) (i : Nat)
    (h : i < (extract_segments doc).length) (p ctx : Nat)
    (hcp : ctx < p)
    (hin : p + ctx < ((extract_segments doc).get ⟨i, h⟩).text.length) :
    make_snippet ((extract_segments doc).get ⟨i, h⟩).text p ctx
      = make_snippet (pageText doc)
          (((extract_segments doc).get ⟨i, h⟩).char_offset + p) ctx := by
  have hi' : i < ((extract_segments doc).map (fun s => s.text)).length := by
    simpa using h
  have hmap : ((extract_segments doc).map (fun s => s.text)).get ⟨i, hi'⟩
      = ((extract_segments doc).get ⟨i, h⟩).text := by
    simp
  have key := make_snippet_join ((extract_segments doc).map (fun s => s.text))
    i hi' p ctx hcp (by rw [hmap]; exact hin)
  rw [hmap] at key
  rw [key, extract_segments_offset_eq doc i h]
  simp only [pageText]

theorem c2_snippet_window_witness :
    make_snippet ((extract_segments docFour).get ⟨1, by decide⟩).text 2 1
      = make_snippet (pageText docFour)
          (((extract_segments docFour).get ⟨1, by decide⟩).char_offset + 2) 1 :=
  c2_snippet_window docFour 1 (by decide) 2 1 (by decide) (by decide)

/-- C2 counterexample: on a page with segments `ab` and `cd` and plain
keyword `cd`, the worker stores position 3 with snippet `cd`, but the
snippet builder applied to the whole-page concatenation `ab cd` at
position 3 with the same context width yields `ab cd`: the two
derivations disagree at segment edges. -/
theorem c2_counterexample :
    ((scan_page (fun _ _ => []) "http://h/x".toList 7 []
        (.success "text/html".toList docTwoP) none
        (compile_rules ["cd".toList]) [] ⟨0, 0, 0⟩).match_rows.map
      (fun m => (m.position, m.snippet)) = [(3, "cd".toList)])
    ∧ make_snippet (pageText docTwoP) 3 snippet_context = "ab cd".toList
    ∧ ("cd".toList : Str) ≠ "ab cd".toList :=
  ⟨by decide, by decide, by decide⟩

/-! ## Worker-path theorems (C5, C6, C8) -/

/-- C6: when registration reports a duplicate `(run_id, url)` pair the
worker stops immediately: no links, no matches, no page row touched, no
counter changed, no events issued; and a second insert attempt for the
same pair never produces a second row. -/
theorem c6_duplicate_registration (engine : ReEngine) (url : Str)
    (run_id : Nat) (table : List (Nat × Str)) (fetch : FetchOutcome)
    (unexpected : Option Str) (keyword_rules exclude_rules : List Rule)
    (c : RunCounters) :
    ((run_id, url) ∈ table →
      scan_page engine url run_id table fetch unexpected keyword_rules
          exclude_rules c
        = ⟨c, none, [], [], table, []⟩)
    ∧ insert_page ((insert_page table run_id url).2) run_id url
        = (none, (insert_page table run_id url).2) := by
  constructor
  · intro hmem
    simp only [scan_page, insert_page, if_pos hmem]
  · by_cases hmem : (run_id, url) ∈ table
    · simp [insert_page, hmem]
    · simp [insert_page, hmem]

theorem c6_duplicate_registration_witness :
    scan_page (fun _ _ => []) "http://h/x".toList 7 [(7, "http://h/x".toList)]
        (.httpStatus 500) none [] [] ⟨3, 2, 1⟩
      = ⟨⟨3, 2, 1⟩, none, [], [], [(7, "http://h/x".toList)], []⟩ :=
  (c6_duplicate_registration (fun _ _ => []) "http://h/x".toList 7
    [(7, "http://h/x".toList)] (.httpStatus 500) none [] [] ⟨3, 2, 1⟩).1
    (by decide)

/-- C5: a successful fetch with a non-HTML content type marks the page
`failed` with note `Non-HTML content-type`, increments `pages_scanned`,
returns no links and does not touch `error_count`; whereas the
HTTP-status, transport and unexpected-fault paths each increment
`error_count` (and `pages_scanned`). -/
theorem c5_content_type_paths (engine : ReEngine) (url : Str) (run_id : Nat)
    (table : List (Nat × Str)) (keyword_rules exclude_rules : List Rule)
    (c : RunCounters) :
    ((run_id, url) ∉ table →
      (∀ content_type body,
        containsSeq "html".toList content_type = false →
        scan_page engine url run_id table (.success content_type body) none
            keyword_rules exclude_rules c
          = ⟨⟨c.pages_found + 1, c.pages_scanned + 1, c.error_count⟩,
             some ⟨url, .failed, some "Non-HTML content-type".toList, none, none⟩,
             [], [], table ++ [(run_id, url)], [.found, .scanned]⟩)
      ∧ (∀ code,
        scan_page engine url run_id table (.httpStatus code) none
            keyword_rules exclude_rules c
          = ⟨⟨c.pages_found + 1, c.pages_scanned + 1, c.error_count + 1⟩,
             some ⟨url, .failed,
               some ("HTTP ".toList ++ (Nat.repr code).toList), none, none⟩,
             [], [], table ++ [(run_id, url)], [.found, .errored, .scanned]⟩)
      ∧ (∀ errName,
        scan_page engine url run_id table (.transportErr errName) none
            keyword_rules exclude_rules c
          = ⟨⟨c.pages_found + 1, c.pages_scanned + 1, c.error_count + 1⟩,
             some ⟨url, .failed,
               some ("Request error: ".toList ++ errName), none, none⟩,
             [], [], table ++ [(run_id, url)], [.found, .errored, .scanned]⟩)
      ∧ (∀ content_type body msg,
        containsSeq "html".toList content_type = true →
        ¬(exclude_rules ≠ [] ∧
            any_match engine (urlparse url).path exclude_rules = true) →
        scan_page engine url run_id table (.success content_type body)
            (some msg) keyword_rules exclude_rules c
          = ⟨⟨c.pages_found + 1, c.pages_scanned + 1, c.error_count + 1⟩,
             some ⟨url, .failed, some (msg.take 200), none, none⟩,
             [], [], table ++ [(run_id, url)],
             [.found, .errored, .scanned]⟩)) := by
  intro hmem
  refine ⟨?_, ?_, ?_, ?_⟩
  · intro content_type body hct
    simp only [scan_page, insert_page, if_neg hmem, hct]
    simp
  · intro code
    simp only [scan_page, insert_page, if_neg hmem]
  · intro errName
    simp only [scan_page, insert_page, if_neg hmem]
  · intro content_type body msg hct hne
    simp only [scan_page, insert_page, if_neg hmem, hct, if_neg hne]
    simp

theorem c5_content_type_paths_witness :
    scan_page (fun _ _ => []) "http://h/x".toList 7 []
        (.success "text/plain".toList docTwoP) none [] [] ⟨0, 0, 0⟩
      = ⟨⟨1, 1, 0⟩,
         some ⟨"http://h/x".toList, .failed,
           some "Non-HTML content-type".toList, none, none⟩,
         [], [], [(7, "http://h/x".toList)], [.found, .scanned]⟩
    ∧ scan_page (fun _ _ => []) "http://h/x".toList 7 []
        (.httpStatus 404) none [] [] ⟨0, 0, 0⟩
      = ⟨⟨1, 1, 1⟩,
         some ⟨"http://h/x".toList, .failed, some "HTTP 404".toList,
           none, none⟩,
         [], [], [(7, "http://h/x".toList)], [.found, .errored, .scanned]⟩ := by
  constructor
  · have h := ((c5_content_type_paths (fun _ _ => []) "http://h/x".toList 7 []
      [] [] ⟨0, 0, 0⟩) (by decide)).1 "text/plain".toList docTwoP (by decide)
    simpa using h
  · have h := ((c5_content_type_paths (fun _ _ => []) "http://h/x".toList 7 []
      [] [] ⟨0, 0, 0⟩) (by decide)).2.1 404
    simpa using h

/-- Fixture: a page under `/private/` holding one same-host link and one
matching paragraph. -/
def docPriv : HtmlForest :=
  forestOf [.elem "a".toList [("href".toList, "/next".toList)]
              (forestOf [.text "go".toList]),
            .elem "p".toList [] (forestOf [.text "green stuff".toList])]

/-- C8: when the exclude-rule set is non-empty and some rule matches the
URL's path component, the worker marks the page `skipped` with a note,
increments `pages_scanned` (leaving `error_count` alone), writes no
matches, and still returns the links already extracted from the page. -/
theorem c8_exclusion_path (engine : ReEngine) (url : Str) (run_id : Nat)
    (table : List (Nat × Str)) (content_type : Str) (body : HtmlForest)
    (unexpected : Option Str) (keyword_rules exclude_rules : List Rule)
    (c : RunCounters)
    (hmem : (run_id, url) ∉ table)
    (hct : containsSeq "html".toList content_type = true)
    (hxr : exclude_rules ≠ [])
    (hhit : any_match engine (urlparse url).path exclude_rules = true) :
    scan_page engine url run_id table (.success content_type body)
        unexpected keyword_rules exclude_rules c
      = ⟨⟨c.pages_found + 1, c.pages_scanned + 1, c.error_count⟩,
         some ⟨url, .skipped, some "URL matched an exclude pattern".toList,
           none, none⟩,
         [], extract_links body url, table ++ [(run_id, url)],
         [.found, .scanned]⟩ := by
  simp only [scan_page, insert_page, if_neg hmem, hct, if_pos (And.intro hxr hhit)]
  simp

theorem c8_exclusion_path_witness :
    scan_page (fun _ _ => []) "http://h/private/x".toList 7 []
        (.success "text/html".toList docPriv) none
        (compile_rules ["green".toList]) (compile_rules ["private".toList])
        ⟨0, 0, 0⟩
      = ⟨⟨1, 1, 0⟩,
         some ⟨"http://h/private/x".toList, .skipped,
           some "URL matched an exclude pattern".toList, none, none⟩,
         [], extract_links docPriv "http://h/private/x".toList,
         [(7, "http://h/private/x".toList)], [.found, .scanned]⟩ := by
  have h := c8_exclusion_path (fun _ _ => []) "http://h/private/x".toList 7 []
    "text/html".toList docPriv none (compile_rules ["green".toList])
    (compile_rules ["private".toList]) ⟨0, 0, 0⟩
    (by decide) (by decide) (by decide) (by decide)
  simpa using h

/-! ## Orchestrator fault placement (C4) -/

/-- C4 counterexample: with a fault during rule compilation (which the
source performs before entering the try block) the run is left in
`running` — it is not transitioned to `failed` as the claim states. -/
theorem c4_counterexample :
    (crawl_run_status false true false false []).status = RunStatus.running
    ∧ RunStatus.running ≠ RunStatus.failed :=
  ⟨by decide, by decide⟩

/-- C4 (amended): a fault inside the try block (HTTP-client construction
or the crawl loop) is caught and flips the run to `failed`; a fault while
normalizing the seed or compiling the rule sets occurs before the try
block and escapes with the run left in `running`; absent orchestration
faults the run is `completed`, regardless of per-worker faults, which
never propagate. -/
theorem c4_orchestrator_faults
    (seedFault compileFault clientFault loopFault : Bool)
    (workersRaised : List Bool) :
    ((seedFault = true ∨ compileFault = true) →
      crawl_run_status seedFault compileFault clientFault loopFault
          workersRaised
        = ⟨.running, true⟩)
    ∧ (seedFault = false → compileFault = false →
        (clientFault = true ∨ loopFault = true) →
        crawl_run_status seedFault compileFault clientFault loopFault
            workersRaised
          = ⟨.failed, false⟩)
    ∧ (seedFault = false → compileFault = false → clientFault = false →
        loopFault = false →
        crawl_run_status seedFault compileFault clientFault loopFault
            workersRaised
          = ⟨.completed, false⟩) := by
  refine ⟨?_, ?_, ?_⟩ <;>
    · intros
      cases seedFault <;> cases compileFault <;> cases clientFault <;>
        cases loopFault <;> simp_all [crawl_run_status]

theorem c4_orchestrator_faults_witness :
    crawl_run_status false false true false [] = ⟨.failed, false⟩
    ∧ crawl_run_status false true false false [] = ⟨.running, true⟩
    ∧ crawl_run_status false false false false [true, true]
        = ⟨.completed, false⟩ :=
  ⟨(c4_orchestrator_faults false false true false []).2.1 rfl rfl (Or.inl rfl),
   (c4_orchestrator_faults false true false false []).1 (Or.inr rfl),
   (c4_orchestrator_faults false false false false [true, true]).2.2
     rfl rfl rfl rfl⟩

/-! ## Rule-compiler theorems (C9) -/

theorem dropWhile_head?_false (p : Char → Bool) :
    ∀ (l : Str) (c : Char), (l.dropWhile p).head? = some c → p c = false := by
  intro l
  induction l with
  | nil => intro c h; simp [List.dropWhile] at h
  | cons x xs ih =>
      intro c h
      by_cases hx : p x
      · rw [List.dropWhile_cons_of_pos hx] at h
        exact ih c h
      · rw [List.dropWhile_cons_of_neg hx] at h
        have hxc : x = c := by simpa using h
        rw [← hxc]
        simpa using hx

theorem dropWhile_eq_self_of_head (p : Char → Bool) (l : Str) (c : Char)
    (hh : l.head? = some c) (hc : p c = false) : l.dropWhile p = l := by
  cases l with
  | nil => simp
  | cons x xs =>
      have hx : x = c := by simpa using hh
      subst hx
      exact List.dropWhile_cons_of_neg (by simp [hc])

theorem dropWhile_getLast? (p : Char → Bool) :
    ∀ (l : Str), l.dropWhile p ≠ [] → (l.dropWhile p).getLast? = l.getLast? := by
  intro l
  induction l with
  | nil => intro h; simp at h
  | cons x xs ih =>
      intro h
      by_cases hx : p x
      · rw [List.dropWhile_cons_of_pos hx] at h ⊢
        rw [ih h]
        have hxs : xs ≠ [] := by
          intro he; rw [he] at h; simp [List.dropWhile] at h
        cases xs with
        | nil => simp at hxs
        | cons y ys => simp [List.getLast?_cons_cons]
      · rw [List.dropWhile_cons_of_neg hx]

theorem stripWs_head (s : Str) (c : Char)
    (hh : (stripWs s).head? = some c) : c.isWhitespace = false := by
  simp only [stripWs] at hh
  rw [List.head?_reverse] at hh
  have hne : (((s.dropWhile Char.isWhitespace).reverse).dropWhile
      Char.isWhitespace) ≠ [] := by
    intro he; rw [he] at hh; simp at hh
  rw [dropWhile_getLast? Char.isWhitespace _ hne] at hh
  rw [List.getLast?_reverse] at hh
  exact dropWhile_head?_false Char.isWhitespace s c hh

theorem stripWs_getLast (s : Str) (c : Char)
    (hh : (stripWs s).getLast? = some c) : c.isWhitespace = false := by
  simp only [stripWs] at hh
  rw [List.getLast?_reverse] at hh
  exact dropWhile_head?_false Char.isWhitespace _ c hh

theorem stripWs_idem (s : Str) : stripWs (stripWs s) = stripWs s := by
  cases hh : (stripWs s).head? with
  | none =>
      have : stripWs s = [] := by
        cases hs : stripWs s with
        | nil => rfl
        | cons x xs => rw [hs] at hh; simp at hh
      rw [this]; rfl
  | some c =>
      have hc := stripWs_head s c hh
      have h1 : (stripWs s).dropWhile Char.isWhitespace = stripWs s :=
        dropWhile_eq_self_of_head Char.isWhitespace _ c hh hc
      have hne : stripWs s ≠ [] := by
        intro he; rw [he] at hh; simp at hh
      have h2 : ((stripWs s).reverse).dropWhile Char.isWhitespace
          = (stripWs s).reverse := by
        cases hl : (stripWs s).getLast? with
        | none =>
            rcases List.getLast?_eq_none_iff.mp hl with h
            exact absurd h hne
        | some d =>
            have hd := stripWs_getLast s d hl
            refine dropWhile_eq_self_of_head Char.isWhitespace _ d ?_ hd
            rw [List.head?_reverse]; exact hl
      show ((((stripWs s).dropWhile Char.isWhitespace).reverse).dropWhile
        Char.isWhitespace).reverse = stripWs s
      rw [h1, h2, List.reverse_reverse]

/-- C9 counterexample: for the keyword `" green "` (non-blank, with
surrounding whitespace) `compile_rules` emits exactly one pair, but its
first component is the stripped string `"green"`, not the original
keyword string as given. -/
theorem c9_counterexample :
    (compile_rules [" green ".toList]).map Prod.fst = ["green".toList]
    ∧ (" green ".toList : Str) ≠ "green".toList :=
  ⟨by decide, by decide⟩

/-- The matcher form the claim prescribes for a (stripped) keyword,
checked in the claim's priority order: the delimited `/expr/` form
(length > 2) first, then the suffix-wildcard form, then the plain form. -/
def claimedForm (kw : Str) (p : RePattern) : Prop :=
  if kw.head? = some '/' ∧ kw.getLast? = some '/' ∧ 2 < kw.length then
    p = .regexForm ((kw.drop 1).dropLast)
  else if kw.getLast? = some '*' then p = .wildcardForm kw.dropLast
  else p = .plainForm kw

theorem compile_rule_fst (k : Str) : (compile_rule k).1 = stripWs k := by
  simp only [compile_rule]
  split
  · rfl
  · split <;> rfl

/-- C9 (amended): `compile_rules` returns exactly one pair per non-blank
entry, in input order, whose first component is the *stripped* keyword
string (so stripping it again changes nothing); the matcher is chosen by
checking the delimited `/expr/` form first, then the suffix-wildcard
form, then the plain form, on the stripped keyword. -/
theorem c9_compile_rules (keywords : List Str) :
    (compile_rules keywords).map Prod.fst
      = (keywords.map stripWs).filter (fun s => s ≠ [])
    ∧ (∀ r ∈ compile_rules keywords, stripWs r.1 = r.1 ∧ claimedForm r.1 r.2) := by
  constructor
  · induction keywords with
    | nil => rfl
    | cons k ks ih =>
        simp only [compile_rules, ne_eq, decide_not, List.map_map,
          List.map_cons, List.filter_cons] at ih ⊢
        by_cases hk : stripWs k = []
        · simp [hk, ih]
        · simp [hk, ih, Function.comp, compile_rule_fst]
  · intro r hr
    simp only [compile_rules, List.mem_map, List.mem_filter] at hr
    obtain ⟨k, _, hk2⟩ := hr
    subst hk2
    refine ⟨?_, ?_⟩
    · rw [compile_rule_fst]; exact stripWs_idem k
    · rw [compile_rule_fst]
      simp only [compile_rule, claimedForm]
      split
      · simp
      · split <;> simp

theorem c9_compile_rules_witness :
    ((compile_rules [" green ".toList, "".toList, "/x|y/".toList,
        "eco*".toList]).map Prod.fst
      = (([" green ".toList, "".toList, "/x|y/".toList,
          "eco*".toList].map stripWs).filter (fun s => s ≠ [])))
    ∧ (stripWs ("green".toList, RePattern.plainForm "green".toList).1
        = "green".toList
      ∧ claimedForm ("green".toList, RePattern.plainForm "green".toList).1
          ("green".toList, RePattern.plainForm "green".toList).2) :=
  ⟨(c9_compile_rules [" green ".toList, "".toList, "/x|y/".toList,
      "eco*".toList]).1,
   (c9_compile_rules [" green ".toList, "".toList, "/x|y/".toList,
      "eco*".toList]).2
     ("green".toList, RePattern.plainForm "green".toList) (by decide)⟩

/-! ## Counter-event lemmas (C7) -/

@[simp] theorem countF_nil : countF [] = 0 := rfl

@[simp] theorem countS_nil : countS [] = 0 := rfl

theorem countF_cons (e : CEvent) (l : List CEvent) :
    countF (e :: l) = (if e = CEvent.found then 1 else 0) + countF l := by
  simp only [countF, List.filter_cons]
  split <;> simp_all <;> omega

theorem countS_cons (e : CEvent) (l : List CEvent) :
    countS (e :: l) = (if e = CEvent.scanned then 1 else 0) + countS l := by
  simp only [countS, List.filter_cons]
  split <;> simp_all <;> omega

theorem domC_nil (c : Nat) : domC c [] := by
  intro n; simp [countS, countF]

theorem domC_cons_found {c : Nat} {w : List CEvent}
    (h : domC c (CEvent.found :: w)) : domC (c + 1) w := by
  intro n
  have := h (n + 1)
  rw [List.take_succ_cons, countS_cons, countF_cons] at this
  simp at this
  omega

theorem domC_cons_scanned {c : Nat} {w : List CEvent}
    (h : domC c (CEvent.scanned :: w)) : 1 ≤ c ∧ domC (c - 1) w := by
  constructor
  · have := h 1
    rw [List.take_succ_cons, countS_cons, countF_cons] at this
    simp at this
    omega
  · intro n
    have := h (n + 1)
    rw [List.take_succ_cons, countS_cons, countF_cons] at this
    have h1 := h 1
    rw [List.take_succ_cons, countS_cons, countF_cons] at h1
    simp at this h1
    omega

theorem domC_cons_errored {c : Nat} {w : List CEvent}
    (h : domC c (CEvent.errored :: w)) : domC c w := by
  intro n
  have := h (n + 1)
  rw [List.take_succ_cons, countS_cons, countF_cons] at this
  simp at this
  omega

theorem interleave_domC {a b t : List CEvent} (hI : Interleave a b t) :
    ∀ (ca cb : Nat), domC ca a → domC cb b → domC (ca + cb) t := by
  induction hI with
  | nil => intro ca cb _ _; exact domC_nil _
  | @left xs ys zs e hI ih =>
      intro ca cb ha hb n
      cases n with
      | zero => simp [countS, countF]
      | succ m =>
          rw [List.take_succ_cons, countS_cons, countF_cons]
          cases e with
          | found =>
              have := ih (ca + 1) cb (domC_cons_found ha) hb m
              simp
              omega
          | scanned =>
              obtain ⟨hc, ha'⟩ := domC_cons_scanned ha
              have := ih (ca - 1) cb ha' hb m
              simp
              omega
          | errored =>
              have := ih ca cb (domC_cons_errored ha) hb m
              simp
              omega
  | @right xs ys zs e hI ih =>
      intro ca cb ha hb n
      cases n with
      | zero => simp [countS, countF]
      | succ m =>
          rw [List.take_succ_cons, countS_cons, countF_cons]
          cases e with
          | found =>
              have := ih ca (cb + 1) ha (domC_cons_found hb) m
              simp
              omega
          | scanned =>
              obtain ⟨hc, hb'⟩ := domC_cons_scanned hb
              have := ih ca (cb - 1) ha hb' m
              simp
              omega
          | errored =>
              have := ih ca cb ha (domC_cons_errored hb) m
              simp
              omega

theorem schedOf_domC {ws : List (List CEvent)} {t : List CEvent}
    (h : SchedOf ws t) : (∀ w ∈ ws, domC 0 w) → domC 0 t := by
  induction h with
  | nil => intro _; exact domC_nil 0
  | @cons w ws rest t hI hS ih =>
      intro hall
      have h1 : domC 0 w := hall w (by simp)
      have h2 : domC 0 rest := ih (fun x hx => hall x (by simp [hx]))
      have h3 := interleave_domC hI 0 0 h1 h2
      simpa using h3

theorem scan_page_events_split (engine : ReEngine) (url : Str) (run_id : Nat)
    (table : List (Nat × Str)) (fetch : FetchOutcome) (unexpected : Option Str)
    (keyword_rules exclude_rules : List Rule) (c : RunCounters) :
    (((run_id, url) ∈ table →
      (scan_page engine url run_id table fetch unexpected keyword_rules
        exclude_rules c).events = [])
    ∧ ((run_id, url) ∉ table →
      (scan_page engine url run_id table fetch unexpected keyword_rules
          exclude_rules c).events = [.found, .scanned]
      ∨ (scan_page engine url run_id table fetch unexpected keyword_rules
          exclude_rules c).events = [.found, .errored, .scanned])) := by
  constructor
  · intro hmem
    simp [scan_page, insert_page, hmem]
  · intro hmem
    cases fetch with
    | httpStatus code => simp [scan_page, insert_page, hmem]
    | transportErr e => simp [scan_page, insert_page, hmem]
    | success ct body =>
        by_cases hct : containsSeq "html".toList ct = true
        · by_cases hex : (exclude_rules ≠ [] ∧
              any_match engine (urlparse url).path exclude_rules = true)
          · left
            simp only [scan_page, insert_page, if_neg hmem, hct, if_pos hex]
            simp
          · cases unexpected with
            | none =>
                left
                simp only [scan_page, insert_page, if_neg hmem, hct, if_neg hex]
                simp
            | some msg =>
                right
                simp only [scan_page, insert_page, if_neg hmem, hct, if_neg hex]
                simp
        · left
          have hct2 : containsSeq "html".toList ct = false := by
            simpa using hct
          simp only [scan_page, insert_page, if_neg hmem, hct2]
          simp

theorem domC0_fs : domC 0 [CEvent.found, CEvent.scanned] := by
  intro n
  match n with
  | 0 => decide
  | 1 => decide
  | (m + 2) =>
      rw [List.take_of_length_le (by simp)]
      decide

theorem domC0_fes : domC 0 [CEvent.found, CEvent.errored, CEvent.scanned] := by
  intro n
  match n with
  | 0 => decide
  | 1 => decide
  | 2 => decide
  | (m + 3) =>
      rw [List.take_of_length_le (by simp)]
      decide

theorem isScanTrace_domC0 (w : List CEvent) (h : IsScanTrace w) : domC 0 w := by
  obtain ⟨engine, url, run_id, table, fetch, unexpected, kr, xr, c, hw⟩ := h
  by_cases hmem : (run_id, url) ∈ table
  · rw [hw, (scan_page_events_split engine url run_id table fetch unexpected
      kr xr c).1 hmem]
    exact domC_nil 0
  · rcases (scan_page_events_split engine url run_id table fetch unexpected
      kr xr c).2 hmem with h2 | h2
    · rw [hw, h2]; exact domC0_fs
    · rw [hw, h2]; exact domC0_fes

/-- C7: each worker increments `pages_found` at most once — exactly once
when registration succeeds, and then as its first counter event — and
increments `pages_scanned` at most once on every terminal path; under
every interleaving of such worker traces, the number of `scanned`
increments never exceeds the number of `found` increments at any
observable point, so `pages_scanned ≤ pages_found` throughout. -/
theorem c7_scanned_le_found (engine : ReEngine) (url : Str) (run_id : Nat)
    (table : List (Nat × Str)) (fetch : FetchOutcome) (unexpected : Option Str)
    (keyword_rules exclude_rules : List Rule) (c : RunCounters)
    (ws : List (List CEvent)) (t : List CEvent) :
    (countS (scan_page engine url run_id table fetch unexpected keyword_rules
        exclude_rules c).events ≤ 1
      ∧ countF (scan_page engine url run_id table fetch unexpected
          keyword_rules exclude_rules c).events ≤ 1
      ∧ ((run_id, url) ∉ table →
          (scan_page engine url run_id table fetch unexpected keyword_rules
            exclude_rules c).events.head? = some CEvent.found
          ∧ countF (scan_page engine url run_id table fetch unexpected
              keyword_rules exclude_rules c).events = 1))
    ∧ ((∀ w ∈ ws, IsScanTrace w) → SchedOf ws t →
        ∀ n, countS (t.take n) ≤ countF (t.take n)) := by
  constructor
  · have hsplit := scan_page_events_split engine url run_id table fetch
      unexpected keyword_rules exclude_rules c
    by_cases hmem : (run_id, url) ∈ table
    · rw [hsplit.1 hmem]
      refine ⟨by decide, by decide, ?_⟩
      intro hcontra; exact absurd hmem hcontra
    · rcases hsplit.2 hmem with h2 | h2 <;> rw [h2]
      · exact ⟨by decide, by decide, fun _ => ⟨by decide, by decide⟩⟩
      · exact ⟨by decide, by decide, fun _ => ⟨by decide, by decide⟩⟩
  · intro hall hsched n
    have hd := schedOf_domC hsched (fun w hw => isScanTrace_domC0 w (hall w hw))
    have := hd n
    omega

theorem c7_scanned_le_found_witness :
    (countS (scan_page (fun _ _ => []) "http://h/x".toList 7 []
        (.success "text/html".toList docTwoP) none [] [] ⟨0, 0, 0⟩).events ≤ 1)
    ∧ countS ([CEvent.found, CEvent.scanned].take 2)
        ≤ countF ([CEvent.found, CEvent.scanned].take 2) := by
  constructor
  · exact (c7_scanned_le_found (fun _ _ => []) "http://h/x".toList 7 []
      (.success "text/html".toList docTwoP) none [] [] ⟨0, 0, 0⟩ [] []).1.1
  · refine (c7_scanned_le_found (fun _ _ => []) "http://h/x".toList 7 []
      (.success "text/html".toList docTwoP) none [] [] ⟨0, 0, 0⟩
      [[CEvent.found, CEvent.scanned]] [CEvent.found, CEvent.scanned]).2
      ?_ ?_ 2
    · intro w hw
      have hw2 : w = [CEvent.found, CEvent.scanned] := by simpa using hw
      rw [hw2]
      exact ⟨fun _ _ => [], "http://h/x".toList, 7, [],
        .success "text/html".toList docTwoP, none, [], [], ⟨0, 0, 0⟩,
        by decide⟩
    · exact SchedOf.cons (Interleave.left (Interleave.left Interleave.nil))
        SchedOf.nil

/-! ## Link-extractor theorems (C3) -/

/-- The canonical form `extract_links` stores for a qualifying href:
resolve against the base, drop the fragment, strip trailing slashes. -/
def LinkNorm (base href0 : Str) : Str :=
  rstripSlash (geturl { urlparse (urljoin base (stripWs href0)) with
    fragment := [] })

/-- An href qualifies for extraction: non-blank, not a pseudo-scheme
link, resolves to an http(s) URL on the base URL's host. -/
def Qualifies (base href0 : Str) : Prop :=
  hrefSkipped (stripWs href0) = false
  ∧ ((urlparse (urljoin base (stripWs href0))).scheme = "http".toList
      ∨ (urlparse (urljoin base (stripWs href0))).scheme = "https".toList)
  ∧ (urlparse (urljoin base (stripWs href0))).netloc = (urlparse base).netloc

/-- Every link `extract_links` emits is the canonicalised serialisation
of an http(s) URL on the base URL's host. -/
def LinkOk (base : Str) (l : Str) : Prop :=
  ∃ u, ((urlparse u).scheme = "http".toList
        ∨ (urlparse u).scheme = "https".toList)
    ∧ (urlparse u).netloc = (urlparse base).netloc
    ∧ l = rstripSlash (geturl { urlparse u with fragment := [] })

theorem linkFold_invariant (base : Str) (hrefs : List Str) :
    ∀ acc : List Str × List Str,
      (∀ x, x ∈ acc.1 ↔ x ∈ acc.2) →
      (∀ x, x ∈ (hrefs.foldl (linkStep base) acc).1
        ↔ x ∈ (hrefs.foldl (linkStep base) acc).2)
      ∧ (∀ l ∈ acc.2, l ∈ (hrefs.foldl (linkStep base) acc).2)
      ∧ (∀ l ∈ (hrefs.foldl (linkStep base) acc).2, l ∈ acc.2 ∨ LinkOk base l)
      ∧ (acc.2.Nodup → (hrefs.foldl (linkStep base) acc).2.Nodup)
      ∧ (∀ href ∈ hrefs, Qualifies base href →
          LinkNorm base href ∈ (hrefs.foldl (linkStep base) acc).2) := by
  induction hrefs with
  | nil =>
      intro acc hInv
      refine ⟨hInv, fun l hl => hl, fun l hl => Or.inl hl, fun h => h, ?_⟩
      intro href hh; simp at hh
  | cons href rest ih =>
      intro acc hInv
      rw [List.foldl_cons]
      by_cases h1 : hrefSkipped (stripWs href) = true
      · have hstep : linkStep base acc href = acc := by
          simp [linkStep, h1]
        rw [hstep]
        have hrec := ih acc hInv
        refine ⟨hrec.1, hrec.2.1, hrec.2.2.1, hrec.2.2.2.1, ?_⟩
        intro h hh hq
        rcases List.mem_cons.mp hh with he | he
        · subst he
          exact absurd h1 (by simp [hq.1])
        · exact hrec.2.2.2.2 h he hq
      · have h1f : hrefSkipped (stripWs href) = false := by
          simpa using h1
        by_cases h2 : ((urlparse (urljoin base (stripWs href))).scheme
            = "http".toList
          ∨ (urlparse (urljoin base (stripWs href))).scheme = "https".toList)
        · by_cases h3 : (urlparse (urljoin base (stripWs href))).netloc
              = (urlparse base).netloc
          · by_cases h4 : LinkNorm base href ∈ acc.1
            · have hstep : linkStep base acc href = acc := by
                simp only [linkStep]
                rw [if_neg (by simp [h1f]), if_neg (not_not_intro h2),
                  if_neg (not_not_intro h3)]
                exact if_pos h4
              rw [hstep]
              have hrec := ih acc hInv
              refine ⟨hrec.1, hrec.2.1, hrec.2.2.1, hrec.2.2.2.1, ?_⟩
              intro h hh hq
              rcases List.mem_cons.mp hh with he | he
              · subst he
                exact hrec.2.1 _ ((hInv _).mp h4)
              · exact hrec.2.2.2.2 h he hq
            · have hstep : linkStep base acc href
                  = (LinkNorm base href :: acc.1,
                     acc.2 ++ [LinkNorm base href]) := by
                simp only [linkStep]
                rw [if_neg (by simp [h1f]), if_neg (not_not_intro h2),
                  if_neg (not_not_intro h3)]
                have h4e : rstripSlash (geturl
                    { urlparse (urljoin base (stripWs href)) with
                      fragment := [] }) ∉ acc.1 := h4
                rw [if_neg h4e]
                rfl
              rw [hstep]
              have hInv2 : ∀ x, x ∈ (LinkNorm base href :: acc.1)
                  ↔ x ∈ acc.2 ++ [LinkNorm base href] := by
                intro x
                simp only [List.mem_cons, List.mem_append,
                  List.mem_singleton, hInv x]
                tauto
              have hrec := ih (LinkNorm base href :: acc.1,
                acc.2 ++ [LinkNorm base href]) hInv2
              refine ⟨hrec.1, ?_, ?_, ?_, ?_⟩
              · intro l hl
                exact hrec.2.1 l (by simp [hl])
              · intro l hl
                rcases hrec.2.2.1 l hl with hm | hm
                · rcases List.mem_append.mp hm with hm2 | hm2
                  · exact Or.inl hm2
                  · right
                    have heq : l = LinkNorm base href := by simpa using hm2
                    exact ⟨urljoin base (stripWs href), h2, h3, heq⟩
                · exact Or.inr hm
              · intro hnd
                apply hrec.2.2.2.1
                have hnotin : LinkNorm base href ∉ acc.2 :=
                  fun hc => h4 ((hInv _).mpr hc)
                simp [List.nodup_append, hnd, hnotin]
              · intro h hh hq
                rcases List.mem_cons.mp hh with he | he
                · subst he
                  exact hrec.2.1 _ (by simp)
                · exact hrec.2.2.2.2 h he hq
          · have hstep : linkStep base acc href = acc := by
              simp only [linkStep]
              rw [if_neg (by simp [h1f]), if_neg (not_not_intro h2)]
              exact if_pos h3
            rw [hstep]
            have hrec := ih acc hInv
            refine ⟨hrec.1, hrec.2.1, hrec.2.2.1, hrec.2.2.2.1, ?_⟩
            intro h hh hq
            rcases List.mem_cons.mp hh with he | he
            · subst he
              exact absurd hq.2.2 h3
            · exact hrec.2.2.2.2 h he hq
        · have hstep : linkStep base acc href = acc := by
            simp only [linkStep]
            rw [if_neg (by simp [h1f])]
            exact if_pos h2
          rw [hstep]
          have hrec := ih acc hInv
          refine ⟨hrec.1, hrec.2.1, hrec.2.2.1, hrec.2.2.2.1, ?_⟩
          intro h hh hq
          rcases List.mem_cons.mp hh with he | he
          · subst he
            exact absurd hq.2.1 h2
          · exact hrec.2.2.2.2 h he hq

theorem extract_links_sound (doc : HtmlForest) (base_url : Str) :
    ∀ l ∈ extract_links doc base_url, LinkOk base_url l := by
  intro l hl
  have h := linkFold_invariant base_url (anchorHrefs doc) ([], []) (by simp)
  rcases h.2.2.1 l hl with hm | hm
  · simp at hm
  · exact hm

/-- The canonical forms of the qualifying hrefs, in document order: the
per-anchor loop keeps exactly these, so `extract_links` is their
first-occurrence deduplication. -/
def keptLinks (base : Str) : List Str → List Str
  | [] => []
  | href0 :: rest =>
      let href := stripWs href0
      if hrefSkipped href then keptLinks base rest
      else
        let parsed := urlparse (urljoin base href)
        if ¬(parsed.scheme = "http".toList ∨ parsed.scheme = "https".toList)
          then keptLinks base rest
        else if parsed.netloc ≠ (urlparse base).netloc then keptLinks base rest
        else rstripSlash (geturl { parsed with fragment := [] })
          :: keptLinks base rest

theorem linkFold_order (base : Str) : ∀ (hrefs seen links : List Str),
    (hrefs.foldl (linkStep base) (seen, links)).2
      = links ++ dedupAux seen (keptLinks base hrefs) := by
  intro hrefs
  induction hrefs with
  | nil => intro seen links; simp [keptLinks, dedupAux]
  | cons href rest ih =>
      intro seen links
      rw [List.foldl_cons]
      by_cases h1 : hrefSkipped (stripWs href) = true
      · have hstep : linkStep base (seen, links) href = (seen, links) := by
          simp [linkStep, h1]
        have hkept : keptLinks base (href :: rest) = keptLinks base rest := by
          simp only [keptLinks]
          rw [if_pos h1]
        rw [hstep, hkept, ih]
      · have h1f : hrefSkipped (stripWs href) = false := by
          simpa using h1
        by_cases h2 : ((urlparse (urljoin base (stripWs href))).scheme
            = "http".toList
          ∨ (urlparse (urljoin base (stripWs href))).scheme = "https".toList)
        · by_cases h3 : (urlparse (urljoin base (stripWs href))).netloc
              = (urlparse base).netloc
          · have hkept : keptLinks base (href :: rest)
                = LinkNorm base href :: keptLinks base rest := by
              simp only [keptLinks]
              rw [if_neg (by simp [h1f]), if_neg (not_not_intro h2),
                if_neg (not_not_intro h3)]
              rfl
            by_cases h4 : LinkNorm base href ∈ seen
            · have hstep : linkStep base (seen, links) href = (seen, links) := by
                simp only [linkStep]
                rw [if_neg (by simp [h1f]), if_neg (not_not_intro h2),
                  if_neg (not_not_intro h3)]
                exact if_pos h4
              rw [hstep, ih, hkept]
              rw [show dedupAux seen (LinkNorm base href :: keptLinks base rest)
                  = dedupAux seen (keptLinks base rest) from by
                simp only [dedupAux]; rw [if_pos h4]]
            · have hstep : linkStep base (seen, links) href
                  = (LinkNorm base href :: seen,
                     links ++ [LinkNorm base href]) := by
                simp only [linkStep]
                rw [if_neg (by simp [h1f]), if_neg (not_not_intro h2),
                  if_neg (not_not_intro h3)]
                have h4e : rstripSlash (geturl
                    { urlparse (urljoin base (stripWs href)) with
                      fragment := [] }) ∉ seen := h4
                rw [if_neg h4e]
                rfl
              rw [hstep, ih, hkept]
              rw [show dedupAux seen (LinkNorm base href :: keptLinks base rest)
                  = LinkNorm base href
                      :: dedupAux (LinkNorm base href :: seen)
                          (keptLinks base rest) from by
                simp only [dedupAux]; rw [if_neg h4]]
              rw [List.append_assoc]
              rfl
          · have hstep : linkStep base (seen, links) href = (seen, links) := by
              simp only [linkStep]
              rw [if_neg (by simp [h1f]), if_neg (not_not_intro h2)]
              exact if_pos h3
            have hkept : keptLinks base (href :: rest)
                = keptLinks base rest := by
              simp only [keptLinks]
              rw [if_neg (by simp [h1f]), if_neg (not_not_intro h2)]
              exact if_pos h3
            rw [hstep, hkept, ih]
        · have hstep : linkStep base (seen, links) href = (seen, links) := by
            simp only [linkStep]
            rw [if_neg (by simp [h1f])]
            exact if_pos h2
          have hkept : keptLinks base (href :: rest)
              = keptLinks base rest := by
            simp only [keptLinks]
            rw [if_neg (by simp [h1f])]
            exact if_pos h2
          rw [hstep, hkept, ih]

/-- Fixture: one cross-host anchor. -/
def docCross : HtmlForest :=
  forestOf [.elem "a".toList
    [("href".toList, "http://other.example/x".toList)]
    (forestOf [.text "x".toList])]

/-- C3 counterexample: `http://other.example/x` is a non-blank,
non-pseudo hyperlink that resolves to an http URL, yet `extract_links`
returns nothing for it against a base on a different host — the
extractor does filter by host, contradicting the claim that it performs
no same-host filtering. -/
theorem c3_counterexample :
    extract_links docCross "http://base.example/start".toList = []
    ∧ hrefSkipped (stripWs "http://other.example/x".toList) = false
    ∧ (urlparse (urljoin "http://base.example/start".toList
        "http://other.example/x".toList)).scheme = "http".toList
    ∧ (urlparse (urljoin "http://base.example/start".toList
        "http://other.example/x".toList)).netloc
      ≠ (urlparse "http://base.example/start".toList).netloc :=
  ⟨by decide, by decide, by decide, by decide⟩

/-- C3 (amended): `extract_links` itself restricts to the base URL's
host.  It returns exactly the canonicalised (fragment dropped, trailing
slash trimmed) resolutions of the document's non-blank, non-pseudo
hyperlinks whose resolved URL is http(s) *and on the base URL's host*,
deduplicated, in first-seen order: the output equals the
first-occurrence deduplication of the canonicalised qualifying hrefs
taken in document order.  Every returned link is such a canonicalised
same-host URL, and the orchestrator's same-host check is a second
filter, not the only one. -/
theorem c3_extract_links (doc : HtmlForest) (base_url : Str) :
    extract_links doc base_url
      = dedupFirst (keptLinks base_url (anchorHrefs doc))
    ∧ (∀ l ∈ extract_links doc base_url, LinkOk base_url l)
    ∧ (extract_links doc base_url).Nodup
    ∧ (∀ href ∈ anchorHrefs doc, Qualifies base_url href →
        LinkNorm base_url href ∈ extract_links doc base_url) := by
  have h := linkFold_invariant base_url (anchorHrefs doc) ([], []) (by simp)
  refine ⟨?_, extract_links_sound doc base_url, h.2.2.2.1 (by simp),
    h.2.2.2.2⟩
  have ho := linkFold_order base_url (anchorHrefs doc) [] []
  simpa [extract_links, dedupFirst] using ho

/-- Fixture: one same-host anchor with a fragment and trailing slash. -/
def docSame : HtmlForest :=
  forestOf [.elem "a".toList
    [("href".toList, "/about/#team".toList)]
    (forestOf [.text "y".toList])]

/-- Fixture: three same-host anchors — `/b`, then `/a`, then `/b#frag`
(a fragment variant of the first) — exercising first-seen order and
deduplication. -/
def docOrder : HtmlForest :=
  forestOf [.elem "a".toList [("href".toList, "/b".toList)]
      (forestOf [.text "1".toList]),
    .elem "a".toList [("href".toList, "/a".toList)]
      (forestOf [.text "2".toList]),
    .elem "a".toList [("href".toList, "/b#frag".toList)]
      (forestOf [.text "3".toList])]

theorem c3_extract_links_witness :
    (extract_links docOrder "http://h/start".toList
        = dedupFirst (keptLinks "http://h/start".toList
            (anchorHrefs docOrder))
      ∧ extract_links docOrder "http://h/start".toList
          = ["http://h/b".toList, "http://h/a".toList])
    ∧ LinkOk "http://base.example/start".toList
        "http://base.example/about".toList
    ∧ (extract_links docSame "http://base.example/start".toList).Nodup
    ∧ ("http://base.example/about".toList : Str)
        ∈ extract_links docSame "http://base.example/start".toList := by
  have h := c3_extract_links docSame "http://base.example/start".toList
  refine ⟨⟨(c3_extract_links docOrder "http://h/start".toList).1,
      by decide⟩, ?_, h.2.2.1, ?_⟩
  · exact h.2.1 "http://base.example/about".toList (by decide)
  · have := h.2.2.2 "/about/#team".toList (by decide)
      (by refine ⟨by decide, ?_, by decide⟩; left; decide)
    simpa using this

/-! ## URL normalisation lemmas (C10) -/

theorem splitFirst_of_not_mem (c : Char) :
    ∀ s : Str, c ∉ s → splitFirst c s = none := by
  intro s
  induction s with
  | nil => intro _; rfl
  | cons x xs ih =>
      intro h
      simp only [List.mem_cons, not_or] at h
      simp only [splitFirst, if_neg (Ne.symm h.1), ih h.2, Option.map_none']

theorem splitFirst_first (c : Char) :
    ∀ xs ys : Str, c ∉ xs → splitFirst c (xs ++ c :: ys) = some (xs, ys) := by
  intro xs
  induction xs with
  | nil => intro ys _; simp [splitFirst]
  | cons x xt ih =>
      intro ys h
      simp only [List.mem_cons, not_or] at h
      simp only [List.cons_append, splitFirst, if_neg (Ne.symm h.1),
        List.append_eq]
      rw [ih ys h.2]
      rfl

theorem splitFirst_parts (c : Char) :
    ∀ s a b : Str, splitFirst c s = some (a, b) → s = a ++ c :: b ∧ c ∉ a := by
  intro s
  induction s with
  | nil => intro a b h; simp [splitFirst] at h
  | cons x xs ih =>
      intro a b h
      by_cases hx : x = c
      · rw [splitFirst, if_pos hx] at h
        simp at h
        subst hx
        obtain ⟨ha, hb⟩ := h
        subst ha
        subst hb
        exact ⟨rfl, by simp⟩
      · rw [splitFirst, if_neg hx] at h
        cases hsf : splitFirst c xs with
        | none => rw [hsf] at h; simp at h
        | some p =>
            rw [hsf] at h
            simp at h
            obtain ⟨hrec1, hrec2⟩ := ih p.1 p.2 (by rw [hsf])
            obtain ⟨ha, hb⟩ := h
            subst ha
            subst hb
            constructor
            · simp [hrec1]
            · simp only [List.mem_cons, not_or]
              exact ⟨Ne.symm hx, hrec2⟩

theorem rstrip_eq_self (s : Str) (c : Char) (hl : s.getLast? = some c)
    (hc : c ≠ '/') : rstripSlash s = s := by
  have hh : s.reverse.head? = some c := by rw [List.head?_reverse]; exact hl
  simp only [rstripSlash]
  rw [dropWhile_eq_self_of_head (fun x => x = '/') s.reverse c hh
    (by simp [hc]), List.reverse_reverse]

theorem rstrip_getLast_ne (s : Str) (c : Char)
    (hl : (rstripSlash s).getLast? = some c) : c ≠ '/' := by
  simp only [rstripSlash, List.getLast?_reverse] at hl
  have := dropWhile_head?_false (fun x => x = '/') s.reverse c hl
  simpa using this

theorem rstrip_idem (s : Str) : rstripSlash (rstripSlash s) = rstripSlash s := by
  cases hl : (rstripSlash s).getLast? with
  | none =>
      have : rstripSlash s = [] := List.getLast?_eq_none_iff.mp hl
      rw [this]; rfl
  | some c => exact rstrip_eq_self _ c hl (rstrip_getLast_ne s c hl)

theorem rstrip_append (xs ys : Str) :
    rstripSlash (xs ++ ys)
      = if rstripSlash ys = [] then rstripSlash xs else xs ++ rstripSlash ys := by
  simp only [rstripSlash, List.reverse_append]
  rw [List.dropWhile_append]
  by_cases h : (ys.reverse.dropWhile (fun c => c = '/')).isEmpty
  · have h2 : (ys.reverse.dropWhile (fun c => c = '/')).reverse = [] := by
      rw [List.isEmpty_iff] at h; rw [h]; rfl
    rw [if_pos h, if_pos h2]
  · have h2 : ¬((ys.reverse.dropWhile (fun c => c = '/')).reverse = []) := by
      rw [List.isEmpty_iff] at h
      simpa using h
    rw [if_neg h, if_neg h2, List.reverse_append, List.reverse_reverse]

theorem rstrip_cons (x : Char) (t : Str) :
    rstripSlash (x :: t)
      = if rstripSlash t = [] then (if x = '/' then [] else [x])
        else x :: rstripSlash t := by
  have h := rstrip_append [x] t
  simp only [List.singleton_append] at h
  rw [h]
  by_cases ht : rstripSlash t = []
  · rw [if_pos ht, if_pos ht]
    by_cases hx : x = '/'
    · simp [rstripSlash, hx]
    · simp [rstripSlash, hx]
  · rw [if_neg ht, if_neg ht]

theorem rstrip_subset (s : Str) : ∀ x ∈ rstripSlash s, x ∈ s := by
  intro x hx
  simp only [rstripSlash, List.mem_reverse] at hx
  have := (List.dropWhile_sublist (l := s.reverse)
    (p := fun c => c = '/')).subset hx
  simpa using this

theorem schemeSplit_eq (scheme rest0 : Str)
    (h : scheme = "http".toList ∨ scheme = "https".toList) :
    schemeSplit (scheme ++ ':' :: rest0) = (scheme, rest0) := by
  rcases h with h | h
  · subst h
    have hs := splitFirst_first ':' "http".toList rest0 (by decide)
    have hcond : ("http".toList : Str) ≠ []
        ∧ List.all "http".toList isSchemeChar = true
        ∧ Option.map Char.isAlpha (List.head? "http".toList) = some true := by
      decide
    have hlow : List.map Char.toLower "http".toList = "http".toList := by decide
    simp only [schemeSplit, hs, if_pos hcond, hlow]
  · subst h
    have hs := splitFirst_first ':' "https".toList rest0 (by decide)
    have hcond : ("https".toList : Str) ≠ []
        ∧ List.all "https".toList isSchemeChar = true
        ∧ Option.map Char.isAlpha (List.head? "https".toList) = some true := by
      decide
    have hlow : List.map Char.toLower "https".toList = "https".toList := by
      decide
    simp only [schemeSplit, hs, if_pos hcond, hlow]

theorem netlocSplit_eq (netloc tail : Str)
    (hn : ∀ c ∈ netloc, isNetChar c = true)
    (ht : tail = [] ∨ ∃ c tl, tail = c :: tl ∧ isNetChar c = false) :
    netlocSplit ('/' :: '/' :: (netloc ++ tail)) = (netloc, tail) := by
  simp only [netlocSplit]
  rw [if_pos (by rfl)]
  have htake : (netloc ++ tail).takeWhile isNetChar = netloc := by
    rw [List.takeWhile_append_of_pos hn]
    rcases ht with ht | ⟨c, tl, ht, hc⟩
    · rw [ht]; simp
    · rw [ht, List.takeWhile_cons_of_neg (by simp [hc])]
      simp
  have hdrop : (netloc ++ tail).dropWhile isNetChar = tail := by
    rw [List.dropWhile_append_of_pos hn]
    rcases ht with ht | ⟨c, tl, ht, hc⟩
    · rw [ht]; simp
    · rw [ht, List.dropWhile_cons_of_neg (by simp [hc])]
  rw [show ('/' :: '/' :: (netloc ++ tail)).drop 2 = netloc ++ tail from rfl,
    htake, hdrop]

theorem fragSplit_eq (rest2 : Str) (h : '#' ∉ rest2) :
    fragSplit rest2 = (rest2, []) := by
  simp only [fragSplit]
  rw [splitFirst_of_not_mem '#' rest2 h]

theorem querySplit_none (befFrag : Str) (h : '?' ∉ befFrag) :
    querySplit befFrag = (befFrag, []) := by
  simp only [querySplit]
  rw [splitFirst_of_not_mem '?' befFrag h]

theorem querySplit_some (path query : Str) (h : '?' ∉ path) :
    querySplit (path ++ '?' :: query) = (path, query) := by
  simp only [querySplit]
  rw [splitFirst_first '?' path query h]

theorem splitFirst_none_not_mem (c : Char) :
    ∀ s : Str, splitFirst c s = none → c ∉ s := by
  intro s
  induction s with
  | nil => intro _; simp
  | cons x xs ih =>
      intro h
      by_cases hx : x = c
      · rw [splitFirst, if_pos hx] at h; simp at h
      · rw [splitFirst, if_neg hx] at h
        cases hsf : splitFirst c xs with
        | none =>
            simp only [List.mem_cons, not_or]
            exact ⟨fun hc => hx hc.symm, ih hsf⟩
        | some p => rw [hsf] at h; simp at h

theorem geturl_expand (ps pn pp pq : Str) (hs : ps ≠ []) (hn : pn ≠ [])
    (hp : pp = [] ∨ pp.head? = some '/') :
    geturl ⟨ps, pn, pp, pq, []⟩
      = ps ++ ':' :: '/' :: '/'
          :: (pn ++ (pp ++ (if pq = [] then [] else '?' :: pq))) := by
  simp only [geturl]
  rw [if_pos (Or.inl hn)]
  have hins : ¬(pp ≠ [] ∧ pp.head? ≠ some '/') := by
    rcases hp with hp | hp
    · intro hcontra; exact hcontra.1 hp
    · intro hcontra; exact hcontra.2 hp
  rw [if_neg hins, if_pos hs]
  by_cases hq : pq = []
  · rw [if_neg (not_not_intro hq), if_neg (by simp)]
    simp [hq, List.append_assoc]
  · rw [if_pos hq, if_neg (by simp)]
    simp [hq, List.append_assoc]

theorem urlparse_canonical (ps pn tail path2 query2 : Str)
    (hs : ps = "http".toList ∨ ps = "https".toList)
    (hn : ∀ c ∈ pn, isNetChar c = true)
    (ht : tail = path2 ++ (if query2 = [] then [] else '?' :: query2))
    (hh : tail = [] ∨ ∃ c tl, tail = c :: tl ∧ isNetChar c = false)
    (hp1 : '?' ∉ path2) (hp2 : '#' ∉ path2) (hq2 : '#' ∉ query2) :
    urlparse (ps ++ ':' :: '/' :: '/' :: (pn ++ tail))
      = ⟨ps, pn, path2, query2, []⟩ := by
  have e1 : schemeSplit (ps ++ ':' :: '/' :: '/' :: (pn ++ tail))
      = (ps, '/' :: '/' :: (pn ++ tail)) := schemeSplit_eq ps _ hs
  have e2 : netlocSplit ('/' :: '/' :: (pn ++ tail)) = (pn, tail) :=
    netlocSplit_eq pn tail hn hh
  have htailhash : '#' ∉ tail := by
    rw [ht]
    simp only [List.mem_append, not_or]
    refine ⟨hp2, ?_⟩
    by_cases hq : query2 = []
    · simp [hq]
    · rw [if_neg hq]
      simp only [List.mem_cons, not_or]
      exact ⟨by decide, hq2⟩
  have e3 : fragSplit tail = (tail, []) := fragSplit_eq tail htailhash
  have e4 : querySplit tail = (path2, query2) := by
    by_cases hq : query2 = []
    · rw [ht, if_pos hq, hq]
      simp only [List.append_nil]
      exact querySplit_none path2 hp1
    · rw [ht, if_neg hq]
      exact querySplit_some path2 query2 hp1
  simp only [urlparse, e1, e2, e3, e4]

theorem urlparse_netloc_chars (s : Str) :
    ∀ c ∈ (urlparse s).netloc, isNetChar c = true := by
  intro c hc
  simp only [urlparse, netlocSplit] at hc
  by_cases h2 : ((schemeSplit s).2).take 2 = ['/', '/']
  · rw [if_pos h2] at hc
    exact List.mem_takeWhile_imp hc
  · rw [if_neg h2] at hc
    simp at hc

theorem fragSplit_fst_no_hash (rest2 : Str) : '#' ∉ (fragSplit rest2).1 := by
  simp only [fragSplit]
  cases hsf : splitFirst '#' rest2 with
  | none => exact splitFirst_none_not_mem '#' rest2 hsf
  | some p => exact (splitFirst_parts '#' rest2 p.1 p.2 hsf).2

theorem fragSplit_fst_sub (rest2 : Str) :
    ∀ x ∈ (fragSplit rest2).1, x ∈ rest2 := by
  intro x hx
  simp only [fragSplit] at hx
  cases hsf : splitFirst '#' rest2 with
  | none => rw [hsf] at hx; exact hx
  | some p =>
      rw [hsf] at hx
      rw [(splitFirst_parts '#' rest2 p.1 p.2 hsf).1]
      simp [hx]

theorem querySplit_fst_no_qm (befFrag : Str) : '?' ∉ (querySplit befFrag).1 := by
  simp only [querySplit]
  cases hsf : splitFirst '?' befFrag with
  | none => exact splitFirst_none_not_mem '?' befFrag hsf
  | some p => exact (splitFirst_parts '?' befFrag p.1 p.2 hsf).2

theorem querySplit_fst_sub (befFrag : Str) :
    ∀ x ∈ (querySplit befFrag).1, x ∈ befFrag := by
  intro x hx
  simp only [querySplit] at hx
  cases hsf : splitFirst '?' befFrag with
  | none => rw [hsf] at hx; exact hx
  | some p =>
      rw [hsf] at hx
      rw [(splitFirst_parts '?' befFrag p.1 p.2 hsf).1]
      simp [hx]

theorem querySplit_snd_sub (befFrag : Str) :
    ∀ x ∈ (querySplit befFrag).2, x ∈ befFrag := by
  intro x hx
  simp only [querySplit] at hx
  cases hsf : splitFirst '?' befFrag with
  | none => rw [hsf] at hx; simp at hx
  | some p =>
      rw [hsf] at hx
      rw [(splitFirst_parts '?' befFrag p.1 p.2 hsf).1]
      simp [hx]

theorem urlparse_path_no_qm (s : Str) : '?' ∉ (urlparse s).path := by
  simp only [urlparse]
  exact querySplit_fst_no_qm _

theorem urlparse_path_no_hash (s : Str) : '#' ∉ (urlparse s).path := by
  simp only [urlparse]
  intro hmem
  exact fragSplit_fst_no_hash _ (querySplit_fst_sub _ '#' hmem)

theorem urlparse_query_no_hash (s : Str) : '#' ∉ (urlparse s).query := by
  simp only [urlparse]
  intro hmem
  exact fragSplit_fst_no_hash _ (querySplit_snd_sub _ '#' hmem)

theorem fragSplit_head (rest2 : Str) :
    (fragSplit rest2).1 = [] ∨ ((fragSplit rest2).1).head? = rest2.head? := by
  simp only [fragSplit]
  cases hsf : splitFirst '#' rest2 with
  | none => right; rfl
  | some p =>
      have h := (splitFirst_parts '#' rest2 p.1 p.2 hsf).1
      cases hp : p.1 with
      | nil => left; rfl
      | cons x xs =>
          right
          rw [h, hp]
          simp

theorem querySplit_head (bf : Str) :
    (querySplit bf).1 = [] ∨ ((querySplit bf).1).head? = bf.head? := by
  simp only [querySplit]
  cases hsf : splitFirst '?' bf with
  | none => right; rfl
  | some p =>
      have h := (splitFirst_parts '?' bf p.1 p.2 hsf).1
      cases hp : p.1 with
      | nil => left; rfl
      | cons x xs =>
          right
          rw [h, hp]
          simp

theorem querySplit_of_qm (bf : Str) (h : bf.head? = some '?') :
    (querySplit bf).1 = [] := by
  cases bf with
  | nil => simp at h
  | cons x xs =>
      have hx : x = '?' := by simpa using h
      subst hx
      simp [querySplit, splitFirst]

theorem fragSplit_of_hash (rest2 : Str) (h : rest2.head? = some '#') :
    (fragSplit rest2).1 = [] := by
  cases rest2 with
  | nil => simp at h
  | cons x xs =>
      have hx : x = '#' := by simpa using h
      subst hx
      simp [fragSplit, splitFirst]

theorem urlparse_path_head (s : Str) (hn : (urlparse s).netloc ≠ []) :
    (urlparse s).path = [] ∨ (urlparse s).path.head? = some '/' := by
  simp only [urlparse, netlocSplit] at hn ⊢
  by_cases h2 : ((schemeSplit s).2).take 2 = ['/', '/']
  · rw [if_pos h2] at hn ⊢
    show (querySplit (fragSplit
        ((((schemeSplit s).2).drop 2).dropWhile isNetChar)).1).1 = []
      ∨ ((querySplit (fragSplit
        ((((schemeSplit s).2).drop 2).dropWhile isNetChar)).1).1).head?
          = some '/'
    cases hr : (((schemeSplit s).2).drop 2).dropWhile isNetChar with
    | nil => left; rfl
    | cons c0 tl =>
        have hc0 : isNetChar c0 = false := by
          apply dropWhile_head?_false isNetChar (((schemeSplit s).2).drop 2) c0
          rw [hr]; rfl
        have hcase : c0 = '/' ∨ c0 = '?' ∨ c0 = '#' := by
          by_contra hcontra
          push_neg at hcontra
          simp [isNetChar, hcontra.1, hcontra.2.1, hcontra.2.2] at hc0
        rcases hcase with hc | hc | hc
        · subst hc
          rcases fragSplit_head ('/' :: tl) with hbf | hbf
          · left; rw [hbf]; rfl
          · rcases querySplit_head (fragSplit ('/' :: tl)).1 with hq | hq
            · left; exact hq
            · right; rw [hq, hbf]; rfl
        · subst hc
          rcases fragSplit_head ('?' :: tl) with hbf | hbf
          · left; rw [hbf]; rfl
          · left
            exact querySplit_of_qm _ (by rw [hbf]; rfl)
        · subst hc
          left
          rw [fragSplit_of_hash ('#' :: tl) (by rfl)]
          rfl
  · rw [if_neg h2] at hn
    exact absurd rfl hn

/-- Wellformedness of URL components, as holding for every parse of an
http(s) URL with a host: http(s) scheme, non-empty netloc of netloc
characters, delimiter-free path and query, absolute-or-empty path. -/
def WfParts (p : UrlParts) : Prop :=
  (p.scheme = "http".toList ∨ p.scheme = "https".toList)
  ∧ p.netloc ≠ []
  ∧ (∀ c ∈ p.netloc, isNetChar c = true)
  ∧ '?' ∉ p.path ∧ '#' ∉ p.path
  ∧ '#' ∉ p.query
  ∧ (p.path = [] ∨ p.path.head? = some '/')

theorem normalise_canonical (ps pn path2 query2 : Str)
    (hs : ps = "http".toList ∨ ps = "https".toList)
    (hn : pn ≠ [])
    (hnc : ∀ c ∈ pn, isNetChar c = true)
    (hp1 : '?' ∉ path2) (hp2 : '#' ∉ path2) (hq2 : '#' ∉ query2)
    (hph : path2 = [] ∨ path2.head? = some '/')
    (hlast : (ps ++ ':' :: '/' :: '/'
        :: (pn ++ (path2 ++ (if query2 = [] then [] else '?' :: query2)))).getLast?
      ≠ some '/') :
    normalise_url (ps ++ ':' :: '/' :: '/'
        :: (pn ++ (path2 ++ (if query2 = [] then [] else '?' :: query2))))
      = ps ++ ':' :: '/' :: '/'
          :: (pn ++ (path2 ++ (if query2 = [] then [] else '?' :: query2))) := by
  have hsne : ps ≠ [] := by
    rcases hs with h | h <;> (subst h; decide)
  have hh : (path2 ++ (if query2 = [] then [] else '?' :: query2)) = []
      ∨ ∃ c tl, (path2 ++ (if query2 = [] then [] else '?' :: query2)) = c :: tl
          ∧ isNetChar c = false := by
    rcases hph with hp | hp
    · by_cases hqe : query2 = []
      · left; simp [hp, hqe]
      · right
        refine ⟨'?', query2, ?_, by decide⟩
        rw [hp, if_neg hqe]
        rfl
    · right
      cases path2 with
      | nil => simp at hp
      | cons c tl2 =>
          have hc : c = '/' := by simpa using hp
          subst hc
          exact ⟨'/', tl2 ++ (if query2 = [] then [] else '?' :: query2),
            by simp, by decide⟩
  have hparse := urlparse_canonical ps pn
    (path2 ++ (if query2 = [] then [] else '?' :: query2)) path2 query2
    hs hnc rfl hh hp1 hp2 hq2
  show rstripSlash (geturl { urlparse _ with fragment := [] }) = _
  rw [hparse]
  have hG := geturl_expand ps pn path2 query2 hsne hn hph
  show rstripSlash (geturl ⟨ps, pn, path2, query2, []⟩) = _
  rw [hG]
  have hne : (ps ++ ':' :: '/' :: '/'
      :: (pn ++ (path2 ++ (if query2 = [] then [] else '?' :: query2)))) ≠ [] := by
    simp
  cases hL : (ps ++ ':' :: '/' :: '/'
      :: (pn ++ (path2 ++ (if query2 = [] then [] else '?' :: query2)))).getLast? with
  | none => exact absurd (List.getLast?_eq_none_iff.mp hL) hne
  | some c =>
      refine rstrip_eq_self _ c hL ?_
      intro hc
      subst hc
      exact hlast hL

theorem norm_rstrip_fixed (p : UrlParts) (hwf : WfParts p)
    (hq : (rstripSlash (geturl { p with fragment := [] })).getLast?
      ≠ some '?') :
    normalise_url (rstripSlash (geturl { p with fragment := [] }))
      = rstripSlash (geturl { p with fragment := [] }) := by
  obtain ⟨ps, pn, pp, pq, pf⟩ := p
  obtain ⟨hs, hn, hnc, hp1, hp2, hq2, hph⟩ := hwf
  dsimp only at hs hn hnc hp1 hp2 hq2 hph
  have hsne : ps ≠ [] := by rcases hs with h | h <;> (subst h; decide)
  have hrec : ({ (⟨ps, pn, pp, pq, pf⟩ : UrlParts) with fragment := [] }
      : UrlParts) = ⟨ps, pn, pp, pq, []⟩ := rfl
  rw [hrec] at hq ⊢
  have hG := geturl_expand ps pn pp pq hsne hn hph
  rw [hG] at hq ⊢
  have hassoc : ∀ t : Str,
      ps ++ ':' :: '/' :: '/' :: (pn ++ t)
        = (ps ++ ':' :: '/' :: '/' :: pn) ++ t := by
    intro t; simp
  have hAlast : (ps ++ ':' :: '/' :: '/' :: pn).getLast? = pn.getLast? := by
    rw [show ps ++ ':' :: '/' :: '/' :: pn = (ps ++ [':', '/', '/']) ++ pn by
      simp]
    exact List.getLast?_append_of_ne_nil _ hn
  have hAslash : (ps ++ ':' :: '/' :: '/' :: pn).getLast? ≠ some '/' := by
    rw [hAlast]
    intro hc
    have hmem := List.mem_of_mem_getLast? hc
    have := hnc '/' hmem
    simp [isNetChar] at this
  have hA : rstripSlash (ps ++ ':' :: '/' :: '/' :: pn)
      = ps ++ ':' :: '/' :: '/' :: pn := by
    cases hL : (ps ++ ':' :: '/' :: '/' :: pn).getLast? with
    | none => exact absurd (List.getLast?_eq_none_iff.mp hL) (by simp)
    | some c =>
        refine rstrip_eq_self _ c hL ?_
        intro hcc; subst hcc; exact hAslash hL
  by_cases hqe : pq = []
  · rw [if_pos hqe] at hq ⊢
    rw [List.append_nil] at hq ⊢
    rw [hassoc pp] at hq ⊢
    rw [rstrip_append] at hq ⊢
    by_cases hpp0 : rstripSlash pp = []
    · rw [if_pos hpp0] at hq ⊢
      rw [hA] at hq ⊢
      have hcan := normalise_canonical ps pn [] [] hs hn hnc (by simp)
        (by simp) (by simp) (Or.inl rfl) (by simpa using hAslash)
      rw [show (([] : Str) ++ (if ([] : Str) = [] then ([] : Str)
        else '?' :: ([] : Str))) = [] from rfl] at hcan
      rw [List.append_nil] at hcan
      exact hcan
    · rw [if_neg hpp0] at hq ⊢
      have hp1' : '?' ∉ rstripSlash pp := fun hc => hp1 (rstrip_subset pp _ hc)
      have hp2' : '#' ∉ rstripSlash pp := fun hc => hp2 (rstrip_subset pp _ hc)
      have hph' : rstripSlash pp = [] ∨ (rstripSlash pp).head? = some '/' := by
        rcases hph with hpe | hph2
        · rw [hpe]; left; rfl
        · cases pp with
          | nil => left; rfl
          | cons c tl =>
              have hc : c = '/' := by simpa using hph2
              subst hc
              rw [rstrip_cons]
              by_cases ht0 : rstripSlash tl = []
              · rw [if_pos ht0]; left; simp
              · rw [if_neg ht0]; right; rfl
      have hlast2 : ((ps ++ ':' :: '/' :: '/' :: pn)
          ++ rstripSlash pp).getLast? ≠ some '/' := by
        rw [List.getLast?_append_of_ne_nil _ hpp0]
        intro hc
        exact rstrip_getLast_ne pp '/' hc rfl
      have hcan := normalise_canonical ps pn (rstripSlash pp) [] hs hn hnc
        hp1' hp2' (by simp) hph'
        (by
          rw [show (rstripSlash pp ++ (if ([] : Str) = [] then ([] : Str)
            else '?' :: ([] : Str))) = rstripSlash pp from by simp]
          rw [hassoc (rstripSlash pp)]
          exact hlast2)
      rw [show (rstripSlash pp ++ (if ([] : Str) = [] then ([] : Str)
        else '?' :: ([] : Str))) = rstripSlash pp from by simp] at hcan
      rw [hassoc (rstripSlash pp)] at hcan
      exact hcan
  · rw [if_neg hqe] at hq ⊢
    have hassoc2 : ps ++ ':' :: '/' :: '/' :: (pn ++ (pp ++ '?' :: pq))
        = ((ps ++ ':' :: '/' :: '/' :: pn) ++ pp) ++ '?' :: pq := by
      simp
    rw [hassoc2] at hq ⊢
    rw [rstrip_append] at hq ⊢
    have hqmark : rstripSlash ('?' :: pq)
        = if rstripSlash pq = [] then ['?'] else '?' :: rstripSlash pq := by
      rw [rstrip_cons]
      by_cases h0 : rstripSlash pq = []
      · rw [if_pos h0, if_pos h0, if_neg (by decide)]
      · rw [if_neg h0, if_neg h0]
    by_cases hq0 : rstripSlash pq = []
    · exfalso
      rw [hqmark, if_pos hq0] at hq
      rw [if_neg (by simp : ¬(['?'] : Str) = [])] at hq
      apply hq
      rw [List.getLast?_append_of_ne_nil _ (by simp)]
      rfl
    · rw [hqmark, if_neg hq0] at hq ⊢
      rw [if_neg (by simp : ¬('?' :: rstripSlash pq : Str) = [])] at hq ⊢
      have hq2' : '#' ∉ rstripSlash pq := fun hc => hq2 (rstrip_subset pq _ hc)
      have hlast3 : (((ps ++ ':' :: '/' :: '/' :: pn) ++ pp)
          ++ '?' :: rstripSlash pq).getLast? ≠ some '/' := by
        rw [List.getLast?_append_of_ne_nil _ (by simp)]
        rw [show ('?' :: rstripSlash pq : Str) = ['?'] ++ rstripSlash pq
          from rfl]
        rw [List.getLast?_append_of_ne_nil _ hq0]
        intro hc
        exact rstrip_getLast_ne pq '/' hc rfl
      have hcan := normalise_canonical ps pn pp (rstripSlash pq) hs hn hnc
        hp1 hp2 hq2' hph
        (by
          rw [if_neg hq0]
          rw [hassoc (pp ++ '?' :: rstripSlash pq), ← List.append_assoc]
          exact hlast3)
      rw [if_neg hq0] at hcan
      rw [hassoc (pp ++ '?' :: rstripSlash pq), ← List.append_assoc] at hcan
      exact hcan

/-- Fixture: one anchor whose href is a query of a single slash. -/
def docQm : HtmlForest :=
  forestOf [.elem "a".toList [("href".toList, "?/".toList)]
    (forestOf [.text "x".toList])]

/-- C10 counterexample: against base `http://h/p` the href `?/` resolves
to `http://h/p?/`; `extract_links` strips the trailing slash out of the
query, emitting `http://h/p?`, which enters the frontier but is not a
fixed point of URL normalisation — re-normalising drops the dangling
`?` and yields `http://h/p`. -/
theorem c10_counterexample :
    extract_links docQm "http://h/p".toList = ["http://h/p?".toList]
    ∧ normalise_url "http://h/p?".toList = "http://h/p".toList
    ∧ ("http://h/p?".toList : Str) ≠ "http://h/p".toList :=
  ⟨by decide, by decide, by decide⟩

/-- C10 (amended): frontier URLs are fixed points of normalisation
except when trailing-slash stripping leaves a dangling `?`.  The
normalised seed re-normalises to itself, and every link `extract_links`
emits is a fixed point of `_normalise_url`, provided the URL has a
non-empty host and does not end in `?` (stripping can strip slashes
belonging to the query, leaving a URL ending in a bare `?`, which
re-parsing drops). -/
theorem c10_frontier_normalised :
    (∀ s : Str,
      ((urlparse s).scheme = "http".toList
        ∨ (urlparse s).scheme = "https".toList) →
      (urlparse s).netloc ≠ [] →
      (normalise_url s).getLast? ≠ some '?' →
      normalise_url (normalise_url s) = normalise_url s)
    ∧ (∀ (doc : HtmlForest) (base l : Str),
      (urlparse base).netloc ≠ [] →
      l ∈ extract_links doc base →
      l.getLast? ≠ some '?' →
      normalise_url l = l) := by
  constructor
  · intro s hs hn hql
    have hwf : WfParts (urlparse s) :=
      ⟨hs, hn, urlparse_netloc_chars s, urlparse_path_no_qm s,
       urlparse_path_no_hash s, urlparse_query_no_hash s,
       urlparse_path_head s hn⟩
    exact norm_rstrip_fixed (urlparse s) hwf hql
  · intro doc base l hbase hmem hql
    obtain ⟨u, hu1, hu2, hl⟩ := extract_links_sound doc base l hmem
    have hn2 : (urlparse u).netloc ≠ [] := by rw [hu2]; exact hbase
    have hwf : WfParts (urlparse u) :=
      ⟨hu1, hn2, urlparse_netloc_chars u, urlparse_path_no_qm u,
       urlparse_path_no_hash u, urlparse_query_no_hash u,
       urlparse_path_head u hn2⟩
    have hfix := norm_rstrip_fixed (urlparse u) hwf (by rw [← hl]; exact hql)
    rw [← hl] at hfix
    exact hfix

theorem c10_frontier_normalised_witness :
    normalise_url (normalise_url "https://example.com/about/".toList)
      = normalise_url "https://example.com/about/".toList
    ∧ normalise_url "http://base.example/about".toList
      = "http://base.example/about".toList := by
  constructor
  · exact c10_frontier_normalised.1 "https://example.com/about/".toList
      (by decide) (by decide) (by decide)
  · exact c10_frontier_normalised.2 docSame "http://base.example/start".toList
      "http://base.example/about".toList (by decide) (by decide) (by decide)
